import Mathlib

/-!
# Verification of the SubstrateOS RAG pipeline

Shallow embedding of the retrieval-augmented-generation subsystem of the
repository (directory `ai-assistant/rag/`): the chunking strategies
(`chunking.py`), embedding batching (`embed.py`), the ingestion pipeline
(`ingest.py`) and the retrievers (`retrieve.py`).

Modelling conventions:
* Python strings are modelled as `List Char`; the Python string operations
  used by the sources (`strip`, `lower`, `split`, negative-index slicing,
  `find`, `rfind`, and the two `re.split` patterns of the chunkers) are
  reproduced below with Python's exact index semantics.
* Floating-point scores are modelled as exact rationals (`ℚ`); the claims
  under study are counting and ordering properties.
* The FAISS flat L2 index is modelled as the list of stored vectors;
  `index.search` is exact squared-L2 nearest-neighbour search returning
  `(distance, index)` pairs in ascending distance order (ties in vector
  insertion order).  When fewer than `k` vectors exist FAISS pads with
  index `-1`, which `retrieve` skips; the model returns the shorter list.
* File-system interaction is abstracted: the ingestion model receives the
  decoded `(path, content)` document list and returns the snapshot it
  would write; the retriever model receives the optional contents of the
  snapshot files.
* Python's `sorted`/`list.sort` are stable; they are modelled by
  `List.insertionSort` with a reflexive total relation, which is stable.
-/

namespace RAG

/-- Python `str` whitespace (the ASCII characters; the sources only rely on
these). -/
def pyIsSpace (c : Char) : Bool :=
  c = ' ' || c = '\t' || c = '\n' || c = '\r' || c = '\x0b' || c = '\x0c'

/-- Python `str.strip()`. -/
def pyStrip (s : List Char) : List Char :=
  ((s.dropWhile pyIsSpace).reverse.dropWhile pyIsSpace).reverse

/-- Python `str.lower()`. -/
def pyLower (s : List Char) : List Char := s.map Char.toLower

/-- Helper for `pyWords`: `acc` is the reversed current word. -/
def pyWordsAux : List Char → List Char → List (List Char)
  | [], acc => if acc.isEmpty then [] else [acc.reverse]
  | c :: cs, acc =>
    if pyIsSpace c then
      if acc.isEmpty then pyWordsAux cs [] else acc.reverse :: pyWordsAux cs []
    else pyWordsAux cs (c :: acc)

/-- Python `str.split()` with no argument: split on whitespace runs,
dropping empty pieces. -/
def pyWords (s : List Char) : List (List Char) := pyWordsAux s []

/-- Whether `sub` occurs in `s` starting at position `j`. -/
def subAt (s sub : List Char) (j : Nat) : Bool :=
  decide ((s.drop j).take sub.length = sub)

/-- Index of the leftmost occurrence of `sub` in `s`, if any. -/
def findSub (s sub : List Char) : Option Nat :=
  ((List.range (s.length + 1)).filter (subAt s sub)).head?

/-- Python `str.find`. -/
def pyFind (s sub : List Char) : Int :=
  match findSub s sub with
  | some j => (j : Int)
  | none => -1

/-- Python slice-endpoint normalisation: a negative index counts from the
end (clamped at `0`), a non-negative one is clamped at the length. -/
def pyAdjustIndex (len : Nat) (i : Int) : Nat :=
  if i < 0 then ((len : Int) + i).toNat else min i.toNat len

/-- Python `s[a:b]` with `Int` endpoints. -/
def pySlice (s : List Char) (a b : Int) : List Char :=
  let a' := pyAdjustIndex s.length a
  let b' := pyAdjustIndex s.length b
  (s.drop a').take (b' - a')

/-- Python `str.rfind(sub, a, b)`: the highest `j` with `a' ≤ j`,
`j + |sub| ≤ b'` and an occurrence of `sub` at `j`; `-1` if none. -/
def pyRfind (s sub : List Char) (a b : Int) : Int :=
  let a' := pyAdjustIndex s.length a
  let b' := pyAdjustIndex s.length b
  match ((List.range (s.length + 1)).filter
      (fun j => decide (a' ≤ j) && decide (j + sub.length ≤ b') && subAt s sub j)).getLast? with
  | some j => (j : Int)
  | none => -1

/-- Helper for `splitOnSub`: the recursion on the remaining string, made
structural with fuel.  Each cut strictly shortens the remaining string (the
separator is non-empty and occurs inside it), so the fuel `s.length + 1`
used by `splitOnSub` always suffices and the fallback branch is
unreachable. -/
def splitOnSubAux (sep : List Char) : Nat → List Char → List (List Char)
  | 0, s => [s]
  | fuel + 1, s =>
    match findSub s sep with
    | none => [s]
    | some j => s.take j :: splitOnSubAux sep fuel (s.drop (j + sep.length))

/-- Python `str.split(sep)` for a non-empty separator: split at every
non-overlapping occurrence, left to right, keeping empty pieces. -/
def splitOnSub (sep : List Char) (s : List Char) : List (List Char) :=
  if sep.length = 0 then [s] else splitOnSubAux sep (s.length + 1) s

/-- A metadata value (`str` and `int` suffice for the RAG sources). -/
inductive MVal where
  | str (s : String)
  | int (n : Nat)
deriving DecidableEq

/-- A Python `dict` with string keys, as an insertion-ordered association
list (Python dicts preserve insertion order). -/
abbrev Meta := List (String × MVal)

/-- Python `{**m, k: v}` / `m[k] = v`: replace in place, else append. -/
def setMeta : Meta → String → MVal → Meta
  | [], k, v => [(k, v)]
  | (k', v') :: rest, k, v =>
    if k' = k then (k, v) :: rest else (k', v') :: setMeta rest k v

/-- Python `dict.get(k)`. -/
def getMeta (m : Meta) (k : String) : Option MVal :=
  (m.find? (fun e => decide (e.1 = k))).map (·.2)

/-- `chunking.Chunk`. -/
structure Chunk where
  id : String
  content : List Char
  metadata : Meta
  start_index : Int
  end_index : Int
deriving DecidableEq

/-! ## `FixedSizeChunker.chunk` (`chunking.py` lines 47-78)

The body is a `while start < len(text)` loop; we embed it as a fueled
recursion on the loop state `(start, chunk_idx, chunks)`.  A result of
`none` means the loop was still running after `fuel` iterations. -/

/-- The loop of `FixedSizeChunker.chunk`, with explicit fuel. -/
def fixedChunkLoop (chunkSize overlap : Nat) (text : List Char) (docId : String)
    (metadata : Meta) : Nat → Int → Nat → List Chunk → Option (List Chunk)
  | 0, _, _, _ => none
  | fuel + 1, start, chunkIdx, chunks =>
    if start < (text.length : Int) then
      let end0 : Int := min (start + chunkSize) text.length
      let endIdx : Int :=
        if end0 < (text.length : Int) then
          let sentenceEnd := pyRfind text ['.', ' '] (start + chunkSize - 50) end0
          if start < sentenceEnd then sentenceEnd + 1 else end0
        else end0
      let chunkText := pyStrip (pySlice text start endIdx)
      if chunkText.isEmpty then
        fixedChunkLoop chunkSize overlap text docId metadata fuel
          (endIdx - overlap) chunkIdx chunks
      else
        fixedChunkLoop chunkSize overlap text docId metadata fuel
          (endIdx - overlap) (chunkIdx + 1)
          (chunks ++ [{ id := docId ++ "_chunk_" ++ toString chunkIdx,
                        content := chunkText,
                        metadata := setMeta metadata "chunk_index" (MVal.int chunkIdx),
                        start_index := start, end_index := endIdx }])
    else some chunks

/-- `FixedSizeChunker.chunk(text, doc_id, metadata)` run with the given
fuel: `some` iff the loop exits within `fuel` iterations. -/
def fixedChunk (chunkSize overlap : Nat) (text : List Char) (docId : String)
    (metadata : Meta) (fuel : Nat) : Option (List Chunk) :=
  fixedChunkLoop chunkSize overlap text docId metadata fuel 0 0 []

theorem fixedChunkLoop_hello_step (fuel i : Nat) (cs : List Chunk) :
    fixedChunkLoop 512 50 ("hello".toList) "doc" [] (fuel + 1) (-45) i cs
      = fixedChunkLoop 512 50 ("hello".toList) "doc" [] fuel (-45) (i + 1)
          (cs ++ [{ id := "doc" ++ "_chunk_" ++ toString i,
                    content := "hello".toList,
                    metadata := [("chunk_index", MVal.int i)],
                    start_index := -45, end_index := 5 }]) := rfl

theorem fixedChunkLoop_hello_none (fuel : Nat) :
    ∀ (i : Nat) (cs : List Chunk),
      fixedChunkLoop 512 50 ("hello".toList) "doc" [] fuel (-45) i cs = none := by
  induction fuel with
  | zero => intro i cs; rfl
  | succ fuel ih =>
    intro i cs
    rw [fixedChunkLoop_hello_step]
    exact ih _ _

/-- C2: the claim asserts that `FixedSizeChunker.chunk` terminates for every
input under the precondition `0 ≤ overlap < chunk_size`.  It does not: with
the default configuration `chunk_size = 512`, `overlap = 50` (which satisfies
the precondition) on the 5-character text `"hello"`, the loop never exits —
after consuming the final window (`end = len(text)`) the code sets
`start = end - overlap = -45 < len(text)` and then re-appends the same window
forever.  For every fuel bound the fueled model of the loop is still
running. -/
theorem C2_fixedSizeChunker_diverges :
    (0 : Int) ≤ 50 ∧ (50 : Int) < 512 ∧
      ∀ fuel, fixedChunk 512 50 ("hello".toList) "doc" [] fuel = none := by
  refine ⟨by norm_num, by norm_num, ?_⟩
  intro fuel
  cases fuel with
  | zero => rfl
  | succ fuel =>
    show fixedChunkLoop 512 50 ("hello".toList) "doc" [] fuel (-45) 1
        [{ id := "doc" ++ "_chunk_" ++ toString 0,
           content := "hello".toList,
           metadata := [("chunk_index", MVal.int 0)],
           start_index := 0, end_index := 5 }] = none
    exact fixedChunkLoop_hello_none fuel 1 _

/-! ## `SemanticChunker.chunk` (`chunking.py` lines 92-148) -/

/-- Number of leading `#` characters. -/
def hashCount : List Char → Nat
  | '#' :: rest => hashCount rest + 1
  | _ => 0

/-- Whether the Python regex `#{1,3}\s` matches at the start of `l` (the
lookahead of the section-splitting pattern): one to three `#` followed by a
whitespace character. -/
def headerStart (l : List Char) : Bool :=
  let h := hashCount l
  decide (1 ≤ h) && decide (h ≤ 3) &&
    (match l.drop h with
     | c :: _ => pyIsSpace c
     | [] => false)

/-- Helper for `splitSections`; `acc` is the reversed current piece. -/
def splitSectionsAux : List Char → List Char → List (List Char)
  | [], acc => [acc.reverse]
  | c :: cs, acc =>
    if c = '\n' && headerStart cs then acc.reverse :: splitSectionsAux cs []
    else splitSectionsAux cs (c :: acc)

/-- Python `re.split(r'\n(?=#{1,3}\s)', text)`: split at every newline that
is immediately followed by a markdown heading; the newline is consumed, the
heading starts the next piece. -/
def splitSections (s : List Char) : List (List Char) := splitSectionsAux s []

/-- State of the accumulation loop of `SemanticChunker.chunk`:
`current` is `current_chunk`, `curStart` is `current_start`. -/
structure SemState where
  chunks : List Chunk
  current : List Char
  curStart : Int
  idx : Nat
deriving DecidableEq

/-- The chunk appended by the two mid-loop flushes of `SemanticChunker.chunk`
(`end_index = current_start + len(current_chunk)`). -/
def semFlushChunk (docId : String) (metadata : Meta) (st : SemState) : Chunk :=
  { id := docId ++ "_chunk_" ++ toString st.idx,
    content := pyStrip st.current,
    metadata := setMeta metadata "chunk_index" (MVal.int st.idx),
    start_index := st.curStart,
    end_index := st.curStart + st.current.length }

/-- The chunk appended by the final flush of `SemanticChunker.chunk`
(`end_index = len(text)`). -/
def semFinalChunk (docId : String) (metadata : Meta) (textLen : Nat)
    (st : SemState) : Chunk :=
  { id := docId ++ "_chunk_" ++ toString st.idx,
    content := pyStrip st.current,
    metadata := setMeta metadata "chunk_index" (MVal.int st.idx),
    start_index := st.curStart,
    end_index := (textLen : Int) }

/-- The paragraph step of `SemanticChunker.chunk` (the inner loop for
oversized sections). -/
def semStepPara (maxSize minSize : Nat) (text : List Char) (docId : String)
    (metadata : Meta) (st : SemState) (para : List Char) : SemState :=
  if maxSize < st.current.length + para.length then
    let st' :=
      if minSize ≤ st.current.length then
        { st with chunks := st.chunks ++ [semFlushChunk docId metadata st],
                  idx := st.idx + 1 }
      else st
    { st' with current := para, curStart := pyFind text para }
  else { st with current := st.current ++ '\n' :: '\n' :: para }

/-- The section step of `SemanticChunker.chunk`. -/
def semStepSection (maxSize minSize : Nat) (text : List Char) (docId : String)
    (metadata : Meta) (st : SemState) (sect : List Char) : SemState :=
  if maxSize < sect.length then
    (splitOnSub ['\n', '\n'] sect).foldl (semStepPara maxSize minSize text docId metadata) st
  else
    if maxSize < st.current.length + sect.length then
      let st' :=
        if minSize ≤ st.current.length then
          { st with chunks := st.chunks ++ [semFlushChunk docId metadata st],
                    idx := st.idx + 1 }
        else st
      { st' with current := sect, curStart := pyFind text sect }
    else { st with current := st.current ++ '\n' :: sect }

/-- The state after `SemanticChunker.chunk` has processed all sections (just
before the final flush). -/
def semanticFold (maxSize minSize : Nat) (text : List Char) (docId : String)
    (metadata : Meta) : SemState :=
  (splitSections text).foldl (semStepSection maxSize minSize text docId metadata)
    ⟨[], [], 0, 0⟩

/-- `SemanticChunker(max_chunk_size, min_chunk_size).chunk(text, doc_id,
metadata)`. -/
def semanticChunk (maxSize minSize : Nat) (text : List Char) (docId : String)
    (metadata : Meta) : List Chunk :=
  let st := semanticFold maxSize minSize text docId metadata
  if minSize ≤ st.current.length then
    st.chunks ++ [semFinalChunk docId metadata text.length st]
  else st.chunks

/-- C3, counterexample: with the default configuration
(`max_chunk_size = 1000`, `min_chunk_size = 100`) on the text `"hi"`, the
final accumulation buffer is the non-empty string `"\nhi"`, yet
`SemanticChunker.chunk` returns no chunk at all: the final buffer is only
flushed when its length reaches `min_chunk_size`, not whenever it is
non-empty. -/
theorem C3_counterexample :
    (semanticFold 1000 100 ("hi".toList) "doc" []).current ≠ [] ∧
    semanticChunk 1000 100 ("hi".toList) "doc" [] = [] := by
  exact ⟨by decide, rfl⟩

/-- C3, amended: if after processing all sections the running buffer holds at
least `min_chunk_size` characters, then a chunk with the (stripped) buffer
content is appended as the last element of the returned list. -/
theorem C3_semanticChunker_final_flush (maxSize minSize : Nat) (text : List Char)
    (docId : String) (metadata : Meta)
    (h : minSize ≤ (semanticFold maxSize minSize text docId metadata).current.length) :
    (semanticChunk maxSize minSize text docId metadata).getLast?
      = some (semFinalChunk docId metadata text.length
          (semanticFold maxSize minSize text docId metadata)) ∧
    (semFinalChunk docId metadata text.length
        (semanticFold maxSize minSize text docId metadata)).content
      = pyStrip (semanticFold maxSize minSize text docId metadata).current := by
  refine ⟨?_, rfl⟩
  simp only [semanticChunk]
  rw [if_pos h, List.getLast?_concat]

/-- Witness for C3: on the text `"hi"` with `min_chunk_size = 1`, the final
buffer `"\nhi"` has length `3 ≥ 1` and the last returned chunk is the final
flush. -/
theorem C3_witness :
    1 ≤ (semanticFold 1000 1 ("hi".toList) "doc" []).current.length ∧
    (semanticChunk 1000 1 ("hi".toList) "doc" []).getLast?
      = some (semFinalChunk "doc" [] ("hi".toList).length
          (semanticFold 1000 1 ("hi".toList) "doc" [])) :=
  ⟨by decide, (C3_semanticChunker_final_flush 1000 1 ("hi".toList) "doc" [] (by decide)).1⟩

/-! ## `OpenAIEmbedding.embed` (`embed.py` lines 39-56)

`create` abstracts one `client.embeddings.create(model=..., input=batch)`
call followed by the extraction `[item.embedding for item in response.data]`.
The loop `for i in range(0, len(texts), 100)` slices `texts[i:i+100]` and
concatenates the per-batch results. -/

/-- The batching loop of `OpenAIEmbedding.embed`. -/
def embedBatches (create : List (List Char) → List (List ℚ)) :
    List (List Char) → List (List ℚ)
  | [] => []
  | t :: ts => create ((t :: ts).take 100) ++ embedBatches create ((t :: ts).drop 100)
termination_by l => l.length
decreasing_by simp only [List.length_drop, List.length_cons]; omega

/-- `OpenAIEmbedding.embed(texts)`. -/
def openAIEmbed (create : List (List Char) → List (List ℚ))
    (texts : List (List Char)) : List (List ℚ) :=
  embedBatches create texts

theorem embedBatches_eq_map (create : List (List Char) → List (List ℚ))
    (g : List Char → List ℚ) (hcreate : ∀ b, create b = b.map g) :
    ∀ texts, embedBatches create texts = texts.map g
  | [] => by rw [embedBatches]; rfl
  | t :: ts => by
    rw [embedBatches, hcreate, embedBatches_eq_map create g hcreate ((t :: ts).drop 100),
      ← List.map_append, List.take_append_drop]
termination_by texts => texts.length
decreasing_by simp only [List.length_drop, List.length_cons]; omega

/-- C7: under the hypothesis that the provider returns exactly one embedding
per input text in order for each batch, `OpenAIEmbedding.embed` returns one
vector per input text overall, in order: batching into groups of 100 and
concatenating preserves length and order. -/
theorem C7_embed_batching (create : List (List Char) → List (List ℚ))
    (g : List Char → List ℚ) (hcreate : ∀ b, create b = b.map g)
    (texts : List (List Char)) :
    (openAIEmbed create texts).length = texts.length ∧
    ∀ i : Nat, (openAIEmbed create texts)[i]? = (texts[i]?).map g := by
  have h : openAIEmbed create texts = texts.map g :=
    embedBatches_eq_map create g hcreate texts
  rw [h]
  exact ⟨by simp, fun i => by simp⟩

/-- Witness for C7: a provider answering `[1]` for every text, on a
250-element input (above the batching threshold of 100). -/
theorem C7_witness :
    (openAIEmbed (fun b => b.map (fun _ => ([1] : List ℚ)))
        (List.replicate 250 ("a".toList))).length = 250 ∧
    (openAIEmbed (fun b => b.map (fun _ => ([1] : List ℚ)))
        (List.replicate 250 ("a".toList)))[0]?
      = ((List.replicate 250 ("a".toList))[0]?).map (fun _ => ([1] : List ℚ)) := by
  have h := C7_embed_batching (fun b => b.map (fun _ => ([1] : List ℚ)))
    (fun _ => [1]) (fun _ => rfl) (List.replicate 250 ("a".toList))
  exact ⟨by rw [h.1, List.length_replicate], h.2 0⟩

/-! ## `ingest.ingest_documents` (`ingest.py` lines 97-192)

File-system traversal and UTF-8 decoding are abstracted: the model receives
the list of decoded `(path, content)` documents.  `md5` abstracts
`hashlib.md5(str(path).encode()).hexdigest()[:12]` and `now` abstracts
`datetime.utcnow().isoformat()`. -/

/-- `pathlib.Path(p).suffix`: the extension (with dot) of the final path
component; empty for names without a dot or starting with the only dot. -/
def pathSuffix (p : List Char) : List Char :=
  let name := ((splitOnSub ['/'] p).getLast?).getD p
  match ((List.range name.length).filter
      (fun j => decide ((name.drop j).take 1 = ['.']))).getLast? with
  | some j => if j = 0 then [] else name.drop j
  | none => []

/-- The `file_type = "auto"` detection of `ingest_file`. -/
def fileTypeOf (path : String) : String :=
  let suffix := pyLower (pathSuffix path.toList)
  if suffix = ".md".toList ∨ suffix = ".txt".toList ∨ suffix = ".rst".toList then "text"
  else if suffix = ".py".toList ∨ suffix = ".ts".toList ∨ suffix = ".js".toList
      ∨ suffix = ".tsx".toList ∨ suffix = ".jsx".toList then "code"
  else if suffix = ".json".toList then "json"
  else "text"

/-- `ingest.ingest_file` on an already decoded text file, chunked by the
semantic chunker exactly as `ingest_documents` builds it
(`max_chunk_size = chunk_size`, `min_chunk_size` left at its default 100). -/
def ingestFile (md5 : String → String) (now : String) (chunkSize : Nat)
    (path : String) (content : List Char) : List Chunk :=
  if pyStrip content = [] then []
  else
    semanticChunk chunkSize 100 content (md5 path)
      [("source", MVal.str path), ("file_type", MVal.str (fileTypeOf path)),
       ("size", MVal.int content.length), ("ingested_at", MVal.str now)]

/-- One record of `chunks.json`. -/
structure ChunkRecord where
  id : String
  content : List Char
  metadata : Meta
deriving DecidableEq

/-- The manifest written to `metadata.json`. -/
structure Manifest where
  ingested_at : String
  source : String
  chunk_size : Nat
  chunk_overlap : Nat
  total_chunks : Nat
  embedding_model : String
  dimensions : Nat
deriving DecidableEq

/-- The persisted snapshot: `index.faiss` (vectors in insertion order),
`chunks.json`, `metadata.json`. -/
structure Snapshot where
  indexVectors : List (List ℚ)
  chunkData : List ChunkRecord
  manifest : Manifest
deriving DecidableEq

/-- The dictionary returned by `ingest_documents`. -/
structure IngestResult where
  documents : Nat
  chunks : Nat
  errors : List String
deriving DecidableEq

/-- `ingest.ingest_documents`: returns the result dictionary and the
snapshot it persists (`none` when nothing is written). -/
def ingestDocuments (embed : List (List Char) → List (List ℚ))
    (md5 : String → String) (now : String) (embeddingModelName : String)
    (source : String) (chunkSize chunkOverlap : Nat)
    (docs : List (String × List Char)) : IngestResult × Option Snapshot :=
  let chunks := docs.flatMap (fun d => ingestFile md5 now chunkSize d.1 d.2)
  if chunks.isEmpty then (⟨0, 0, ["No documents found"]⟩, none)
  else
    let embeddings := embed (chunks.map (·.content))
    let dimension := (embeddings.headD []).length
    (⟨(chunks.map (fun c => getMeta c.metadata "source")).dedup.length,
      chunks.length, []⟩,
     some { indexVectors := embeddings,
            chunkData := chunks.map (fun c => ⟨c.id, c.content, c.metadata⟩),
            manifest := ⟨now, source, chunkSize, chunkOverlap, chunks.length,
                         embeddingModelName, dimension⟩ })

/-- C1: whenever an ingestion run persists a snapshot (i.e. produced at
least one chunk), and the embedder returns exactly one vector per input text
in order, the snapshot satisfies `len(vectors) = len(chunk records) =
manifest.total_chunks`, and the vector at every position `i` is the
embedding of the content of the chunk record at position `i`. -/
theorem C1_snapshot_alignment (embed : List (List Char) → List (List ℚ))
    (g : List Char → List ℚ) (md5 : String → String)
    (now embeddingModelName source : String) (chunkSize chunkOverlap : Nat)
    (docs : List (String × List Char)) (snap : Snapshot)
    (hembed : ∀ ts, embed ts = ts.map g)
    (hsnap : (ingestDocuments embed md5 now embeddingModelName source
        chunkSize chunkOverlap docs).2 = some snap) :
    snap.indexVectors.length = snap.chunkData.length ∧
    snap.chunkData.length = snap.manifest.total_chunks ∧
    ∀ i : Nat, snap.indexVectors[i]? = (snap.chunkData[i]?).map (fun r => g r.content) := by
  simp only [ingestDocuments] at hsnap
  by_cases h : (docs.flatMap (fun d => ingestFile md5 now chunkSize d.1 d.2)).isEmpty
  · rw [if_pos h] at hsnap; exact absurd hsnap (by simp)
  · rw [if_neg h] at hsnap
    have hs := Option.some.inj hsnap
    subst hs
    refine ⟨by simp [hembed], by simp, fun i => ?_⟩
    simp only [hembed, List.getElem?_map, Option.map_map]
    cases (docs.flatMap (fun d => ingestFile md5 now chunkSize d.1 d.2))[i]? <;> rfl

/-- A copying embedder for the C1 witness. -/
def c1Embed : List (List Char) → List (List ℚ) := fun ts => ts.map (fun _ => [0])

/-- A one-document corpus (150 characters, yielding one chunk) for the C1
witness. -/
def c1Docs : List (String × List Char) := [("a.md", List.replicate 150 'a')]

/-- The snapshot persisted by the C1 witness run. -/
def c1Snap : Snapshot :=
  ((ingestDocuments c1Embed (fun _ => "d") "t" "m" "s" 512 50 c1Docs).2).getD
    ⟨[], [], ⟨"", "", 0, 0, 0, "", 0⟩⟩

set_option maxRecDepth 8192 in
/-- Witness for C1: a concrete ingestion run that persists a snapshot, with
aligned vector/record/manifest counts. -/
theorem C1_witness :
    (ingestDocuments c1Embed (fun _ => "d") "t" "m" "s" 512 50 c1Docs).2 = some c1Snap ∧
    c1Snap.indexVectors.length = c1Snap.chunkData.length ∧
    c1Snap.chunkData.length = c1Snap.manifest.total_chunks := by
  have h1 : (ingestDocuments c1Embed (fun _ => "d") "t" "m" "s" 512 50 c1Docs).2
      = some c1Snap := by decide
  have h2 := C1_snapshot_alignment c1Embed (fun _ => [0]) (fun _ => "d") "t" "m" "s"
    512 50 c1Docs c1Snap (fun _ => rfl) h1
  exact ⟨h1, h2.1, h2.2.1⟩

/-- C8: when ingestion yields zero chunks, `ingest_documents` returns the
structured result `{"documents": 0, "chunks": 0, "errors": ["No documents
found"]}`, persists nothing, and does not raise (the model is a total
function returning this value). -/
theorem C8_empty_corpus (embed : List (List Char) → List (List ℚ))
    (md5 : String → String) (now embeddingModelName source : String)
    (chunkSize chunkOverlap : Nat) (docs : List (String × List Char))
    (h : docs.flatMap (fun d => ingestFile md5 now chunkSize d.1 d.2) = []) :
    ingestDocuments embed md5 now embeddingModelName source chunkSize chunkOverlap docs
      = (⟨0, 0, ["No documents found"]⟩, none) := by
  simp [ingestDocuments, h]

/-- Witness for C8: the empty corpus. -/
theorem C8_witness :
    ([] : List (String × List Char)).flatMap
        (fun d => ingestFile (fun _ => "d") "t" 512 d.1 d.2) = [] ∧
    ingestDocuments (fun ts => ts.map (fun _ => [])) (fun _ => "d") "t" "m" "s" 512 50 []
      = (⟨0, 0, ["No documents found"]⟩, none) :=
  ⟨rfl, C8_empty_corpus (fun ts => ts.map (fun _ => [])) (fun _ => "d") "t" "m" "s"
    512 50 [] rfl⟩

/-- C10: two `ingest_documents` runs that differ only in `chunk_overlap`
return the same result dictionary and persist the same vectors and the same
chunk records; the manifests agree on every field except `chunk_overlap`
(the semantic chunker is built from `chunk_size` alone and never sees the
overlap). -/
theorem C10_overlap_only_in_manifest (embed : List (List Char) → List (List ℚ))
    (md5 : String → String) (now embeddingModelName source : String)
    (chunkSize o1 o2 : Nat) (docs : List (String × List Char)) :
    (ingestDocuments embed md5 now embeddingModelName source chunkSize o1 docs).1
      = (ingestDocuments embed md5 now embeddingModelName source chunkSize o2 docs).1 ∧
    Option.map Snapshot.indexVectors
        (ingestDocuments embed md5 now embeddingModelName source chunkSize o1 docs).2
      = Option.map Snapshot.indexVectors
        (ingestDocuments embed md5 now embeddingModelName source chunkSize o2 docs).2 ∧
    Option.map Snapshot.chunkData
        (ingestDocuments embed md5 now embeddingModelName source chunkSize o1 docs).2
      = Option.map Snapshot.chunkData
        (ingestDocuments embed md5 now embeddingModelName source chunkSize o2 docs).2 ∧
    Option.map (fun s => { s.manifest with chunk_overlap := 0 })
        (ingestDocuments embed md5 now embeddingModelName source chunkSize o1 docs).2
      = Option.map (fun s => { s.manifest with chunk_overlap := 0 })
        (ingestDocuments embed md5 now embeddingModelName source chunkSize o2 docs).2 := by
  simp only [ingestDocuments]
  by_cases h : (docs.flatMap (fun d => ingestFile md5 now chunkSize d.1 d.2)).isEmpty <;>
    simp [h]

/-! ## `RAGRetriever` (`retrieve.py` lines 26-165)

`embedOne` abstracts `self.embedding_model.embed([query])[0]`. -/

/-- `retrieve.RetrievalResult`. -/
structure RetrievalResult where
  id : String
  content : List Char
  score : ℚ
  metadata : Meta
deriving DecidableEq

/-- Squared L2 distance, as FAISS `IndexFlatL2` computes it (all vectors in
play share the index dimensionality). -/
def sqL2 (u v : List ℚ) : ℚ := ((u.zip v).map (fun p => (p.1 - p.2) ^ 2)).sum

/-- The distance-to-similarity conversion `score = 1.0 / (1.0 + dist)` of
`RAGRetriever.retrieve`. -/
def similarity (d : ℚ) : ℚ := 1 / (1 + d)

/-- Ascending-distance order on `(distance, index)` pairs; used to model the
order in which FAISS returns search hits. -/
def distLE (a b : ℚ × Nat) : Prop := a.1 ≤ b.1

instance : DecidableRel distLE := fun a b => inferInstanceAs (Decidable (a.1 ≤ b.1))

instance : IsTotal (ℚ × Nat) distLE := ⟨fun a b => le_total a.1 b.1⟩

instance : IsTrans (ℚ × Nat) distLE := ⟨fun _ _ _ h1 h2 => le_trans h1 h2⟩

/-- Descending-score order on retrieval results; `insertionSort scoreGE` is
the stable descending sort performed by Python's
`sorted(..., key=lambda x: x.score, reverse=True)` / `list.sort`. -/
def scoreGE (a b : RetrievalResult) : Prop := b.score ≤ a.score

instance : DecidableRel scoreGE := fun a b => inferInstanceAs (Decidable (b.score ≤ a.score))

instance : IsTotal RetrievalResult scoreGE := ⟨fun a b => le_total b.score a.score⟩

instance : IsTrans RetrievalResult scoreGE := ⟨fun _ _ _ h1 h2 => le_trans h2 h1⟩

/-- The `(squared distance, index)` pair of every stored vector against the
query. -/
def distPairs (vecs : List (List ℚ)) (q : List ℚ) : List (ℚ × Nat) :=
  (vecs.enum).map (fun p => (sqL2 q p.2, p.1))

/-- FAISS exact search over the flat index: all `(squared distance, index)`
pairs in ascending distance order (ties in vector insertion order),
truncated to `k`.  (For `k > ntotal` FAISS pads with index `-1`, which
`retrieve` skips; the model returns the shorter list directly.) -/
def faissSearch (vecs : List (List ℚ)) (q : List ℚ) (k : Nat) : List (ℚ × Nat) :=
  (List.insertionSort distLE (distPairs vecs q)).take k

/-- The retriever state established by `RAGRetriever.__init__`. -/
structure RetrieverState where
  index : Option (List (List ℚ))
  chunks : List ChunkRecord

/-- The on-disk snapshot as seen by `_load_index`: the optional contents of
`index.faiss` and `chunks.json`. -/
structure SnapshotFiles where
  indexFile : Option (List (List ℚ))
  chunksFile : Option (List ChunkRecord)

/-- `RAGRetriever._load_index`: when the index file is missing it logs and
returns, leaving the constructed state uninitialised (`index = None`,
`chunks = []`); otherwise it loads the index and, when present, the chunk
records. -/
def loadIndex (fs : SnapshotFiles) : RetrieverState :=
  match fs.indexFile with
  | none => ⟨none, []⟩
  | some vecs => ⟨some vecs, fs.chunksFile.getD []⟩

/-- The per-hit conversion inside `RAGRetriever.retrieve`: skip out-of-range
indices, convert distance to similarity, drop scores below the threshold. -/
def hitToResult (chunks : List ChunkRecord) (threshold : ℚ) (p : ℚ × Nat) :
    Option RetrievalResult :=
  match chunks[p.2]? with
  | none => none
  | some c =>
    if threshold ≤ similarity p.1 then
      some ⟨c.id, c.content, similarity p.1, c.metadata⟩
    else none

/-- `RAGRetriever._rerank`: boost each candidate's score by
`0.05 × |query_words ∩ content_words|`, stable-sort descending, truncate. -/
def rerankModel (query : List Char) (results : List RetrievalResult) (topK : Nat) :
    List RetrievalResult :=
  let qw := (pyWords (pyLower query)).dedup
  let boosted := results.map (fun r =>
    let cw := (pyWords (pyLower r.content)).dedup
    { r with score := r.score + ((qw.filter (fun w => decide (w ∈ cw))).length : ℚ) * (1 / 20) })
  (List.insertionSort scoreGE boosted).take topK

/-- `RAGRetriever.retrieve(query, top_k, threshold, rerank)`. -/
def retrieveModel (st : RetrieverState) (embedOne : List Char → List ℚ)
    (query : List Char) (topK : Nat) (threshold : ℚ) (rerank : Bool) :
    Except String (List RetrievalResult) :=
  match st.index with
  | none => .error "Index not loaded"
  | some vecs =>
    let searchK := if rerank then topK * 3 else topK
    let results := (faissSearch vecs (embedOne query) searchK).filterMap
      (hitToResult st.chunks threshold)
    let reranked := if rerank then
        (if topK < results.length then rerankModel query results topK else results)
      else results
    .ok (reranked.take topK)

/-- C9: constructing a retriever over a snapshot path whose index file does
not exist succeeds and leaves the retriever in the explicit
index-not-loaded state, and every subsequent `retrieve` call on it raises
`RuntimeError("Index not loaded")` without returning results. -/
theorem C9_index_not_loaded (fs : SnapshotFiles) (h : fs.indexFile = none) :
    (loadIndex fs).index = none ∧
    ∀ (embedOne : List Char → List ℚ) (query : List Char) (topK : Nat)
      (threshold : ℚ) (rerank : Bool),
      retrieveModel (loadIndex fs) embedOne query topK threshold rerank
        = .error "Index not loaded" := by
  constructor
  · simp [loadIndex, h]
  · intro embedOne query topK threshold rerank
    simp [loadIndex, h, retrieveModel]

/-- Witness for C9: the empty file system. -/
theorem C9_witness :
    (⟨none, none⟩ : SnapshotFiles).indexFile = none ∧
    (loadIndex ⟨none, none⟩).index = none ∧
    retrieveModel (loadIndex ⟨none, none⟩) (fun _ => []) ("q".toList) 5 0 true
      = .error "Index not loaded" := by
  have h := C9_index_not_loaded ⟨none, none⟩ rfl
  exact ⟨rfl, h.1, h.2 (fun _ => []) ("q".toList) 5 0 true⟩

theorem filterMap_sublist_mono {α β : Type} (f g : α → Option β)
    (h : ∀ a b, g a = some b → f a = some b) (l : List α) :
    (l.filterMap g).Sublist (l.filterMap f) := by
  induction l with
  | nil => simp
  | cons a l ih =>
    rw [List.filterMap_cons, List.filterMap_cons]
    cases hg : g a with
    | none =>
      cases hf : f a with
      | none => exact ih
      | some c => exact ih.cons c
    | some b => rw [h a b hg]; exact ih.cons₂ b

theorem hitToResult_mono {chunks : List ChunkRecord} {t1 t2 : ℚ} (h12 : t1 ≤ t2)
    (p : ℚ × Nat) (r : RetrievalResult)
    (h : hitToResult chunks t2 p = some r) : hitToResult chunks t1 p = some r := by
  unfold hitToResult at h ⊢
  cases hc : chunks[p.2]? with
  | none => rw [hc] at h; exact absurd h (by simp)
  | some c =>
    simp only [hc] at h ⊢
    by_cases ht : t2 ≤ similarity p.1
    · rw [if_pos ht] at h
      rw [if_pos (le_trans h12 ht)]
      exact h
    · rw [if_neg ht] at h; exact absurd h (by simp)

theorem hitToResult_score {chunks : List ChunkRecord} {t : ℚ}
    {p : ℚ × Nat} {r : RetrievalResult}
    (h : hitToResult chunks t p = some r) : t ≤ r.score := by
  unfold hitToResult at h
  cases hc : chunks[p.2]? with
  | none => rw [hc] at h; exact absurd h (by simp)
  | some c =>
    simp only [hc] at h
    by_cases ht : t ≤ similarity p.1
    · rw [if_pos ht] at h
      cases h
      exact ht
    · rw [if_neg ht] at h; exact absurd h (by simp)

/-- C5: threshold monotonicity for `rerank = False`: for `t1 ≤ t2` the run
with threshold `t2` returns at most as many results as the run with `t1`,
and every result it returns has similarity at least `t2`. -/
theorem C5_threshold_monotone (st : RetrieverState) (embedOne : List Char → List ℚ)
    (query : List Char) (topK : Nat) (t1 t2 : ℚ) (L1 L2 : List RetrievalResult)
    (h12 : t1 ≤ t2)
    (h1 : retrieveModel st embedOne query topK t1 false = .ok L1)
    (h2 : retrieveModel st embedOne query topK t2 false = .ok L2) :
    L2.length ≤ L1.length ∧ ∀ r ∈ L2, t2 ≤ r.score := by
  cases hidx : st.index with
  | none => rw [retrieveModel, hidx] at h1; exact absurd h1 (by simp)
  | some vecs =>
    rw [retrieveModel, hidx] at h1 h2
    simp only [if_neg (Bool.false_ne_true), Except.ok.injEq] at h1 h2
    subst h1; subst h2
    have hsub := filterMap_sublist_mono (hitToResult st.chunks t1)
      (hitToResult st.chunks t2) (hitToResult_mono h12)
      (faissSearch vecs (embedOne query) topK)
    constructor
    · have := hsub.length_le
      simp only [List.length_take]
      omega
    · intro r hr
      have hr2 := List.mem_of_mem_take hr
      obtain ⟨p, _, hp⟩ := List.mem_filterMap.mp hr2
      exact hitToResult_score hp

/-- A two-chunk loaded retriever used by concrete witnesses. -/
def exSt : RetrieverState :=
  ⟨some [[0], [3]], [⟨"c0", "x".toList, []⟩, ⟨"c1", "y".toList, []⟩]⟩

/-- The result list of the witness retrieval over `exSt`. -/
def exL : List RetrievalResult :=
  (retrieveModel exSt (fun _ => [1]) ("q".toList) 2 0 false).toOption.getD []

/-- Witness for C5: a concrete loaded index on which both runs succeed. -/
theorem C5_witness :
    (0 : ℚ) ≤ 0 ∧
    retrieveModel exSt (fun _ => [1]) ("q".toList) 2 0 false = .ok exL ∧
    exL.length ≤ exL.length := by
  have hok : retrieveModel exSt (fun _ => [1]) ("q".toList) 2 0 false = .ok exL := rfl
  exact ⟨le_refl 0, hok,
    (C5_threshold_monotone exSt (fun _ => [1]) ("q".toList) 2 0 0 exL exL
      (le_refl 0) hok hok).1⟩

theorem length_filterMap_of_forall_isSome {α β : Type} (f : α → Option β) (l : List α)
    (h : ∀ a ∈ l, (f a).isSome) : (l.filterMap f).length = l.length := by
  induction l with
  | nil => rfl
  | cons a l ih =>
    rw [List.filterMap_cons]
    cases hf : f a with
    | none =>
      have := h a (List.mem_cons_self a l)
      rw [hf] at this
      exact absurd this (by simp)
    | some b =>
      simp only [List.length_cons]
      rw [ih (fun x hx => h x (List.mem_cons_of_mem a hx))]

/-- C6: `retrieve` returns at most `top_k` results; and when the index holds
`n < top_k` chunks, all of whose similarities meet the threshold, it returns
exactly `n` results. -/
theorem C6_topk_bound (st : RetrieverState) (embedOne : List Char → List ℚ)
    (query : List Char) (topK : Nat) (threshold : ℚ) (rerank : Bool) :
    (∀ L, retrieveModel st embedOne query topK threshold rerank = .ok L →
      L.length ≤ topK) ∧
    (∀ vecs, st.index = some vecs → vecs.length = st.chunks.length →
      st.chunks.length < topK →
      (∀ v ∈ vecs, threshold ≤ similarity (sqL2 (embedOne query) v)) →
      ∃ L, retrieveModel st embedOne query topK threshold rerank = .ok L ∧
        L.length = st.chunks.length) := by
  constructor
  · intro L hL
    cases hidx : st.index with
    | none => rw [retrieveModel, hidx] at hL; exact absurd hL (by simp)
    | some vecs =>
      rw [retrieveModel, hidx] at hL
      simp only [Except.ok.injEq] at hL
      subst hL
      simp only [List.length_take]
      omega
  · intro vecs hidx hlen hn hthr
    have hsearch : st.chunks.length < (if rerank then topK * 3 else topK) := by
      cases rerank <;> simp <;> omega
    set searchK := if rerank then topK * 3 else topK with hsK
    set pairs := distPairs vecs (embedOne query) with hpairs
    have hplen : pairs.length = vecs.length := by
      simp [hpairs, distPairs, List.enum_length]
    have hperm : List.Perm (List.insertionSort distLE pairs) pairs :=
      List.perm_insertionSort distLE pairs
    have hslen : (List.insertionSort distLE pairs).length = vecs.length :=
      hperm.length_eq.trans hplen
    have hfaiss : faissSearch vecs (embedOne query) searchK
        = List.insertionSort distLE pairs := by
      rw [faissSearch, ← hpairs]
      exact List.take_of_length_le (by omega)
    have htot : ∀ p ∈ List.insertionSort distLE pairs,
        (hitToResult st.chunks threshold p).isSome := by
      intro p hp
      have hp2 : p ∈ pairs := hperm.subset hp
      obtain ⟨⟨i, v⟩, hmem, hpv⟩ := List.mem_map.mp hp2
      have hi : i < vecs.length := List.fst_lt_of_mem_enum hmem
      have hv : v ∈ vecs := List.snd_mem_of_mem_enum hmem
      have hic : i < st.chunks.length := hlen ▸ hi
      rw [← hpv]
      unfold hitToResult
      cases hc : st.chunks[i]? with
      | none =>
        rw [List.getElem?_eq_none_iff] at hc
        omega
      | some c =>
        simp only [hc]
        rw [if_pos (hthr v hv)]
        rfl
    have hreslen : ((List.insertionSort distLE pairs).filterMap
        (hitToResult st.chunks threshold)).length = st.chunks.length := by
      rw [length_filterMap_of_forall_isSome _ _ htot, hslen, hlen]
    refine ⟨(List.insertionSort distLE pairs).filterMap
        (hitToResult st.chunks threshold), ?_, ?_⟩
    · rw [retrieveModel, hidx]
      simp only [← hsK, hfaiss]
      have hnr : ¬ topK < ((List.insertionSort distLE pairs).filterMap
          (hitToResult st.chunks threshold)).length := by omega
      rw [if_neg hnr]
      have : (if rerank = true then (List.insertionSort distLE pairs).filterMap
            (hitToResult st.chunks threshold)
          else (List.insertionSort distLE pairs).filterMap
            (hitToResult st.chunks threshold))
          = (List.insertionSort distLE pairs).filterMap
            (hitToResult st.chunks threshold) := by
        cases rerank <;> rfl
      rw [this]
      rw [List.take_of_length_le (by omega)]
    · exact hreslen

/-! ## `HybridRetriever` (`retrieve.py` lines 168-247) -/

/-- `set(s.lower().split())`, as a deduplicated word list. -/
def wordSet (s : List Char) : List (List Char) := (pyWords (pyLower s)).dedup

/-- `len(A & B)` for the word sets: the number of distinct words of `qw`
(already deduplicated) that occur in `cw`. -/
def interCount (qw cw : List (List Char)) : Nat :=
  (qw.filter (fun w => decide (w ∈ cw))).length

/-- The `(chunk index, score)` list built by `HybridRetriever._keyword_search`
before sorting: every chunk sharing at least one word with the query gets
`score = matches / len(query_words)`. -/
def kwScorePairs (chunks : List ChunkRecord) (qw : List (List Char)) :
    List (Nat × ℚ) :=
  (chunks.enum).filterMap (fun p =>
    let nMatch := interCount qw (wordSet p.2.content)
    if 0 < nMatch then some (p.1, (nMatch : ℚ) / (qw.length : ℚ)) else none)

/-- Descending-score order on `(index, score)` pairs, modelling the stable
`scores.sort(key=lambda x: x[1], reverse=True)`. -/
def pairGE (a b : Nat × ℚ) : Prop := b.2 ≤ a.2

instance : DecidableRel pairGE := fun a b => inferInstanceAs (Decidable (b.2 ≤ a.2))

instance : IsTotal (Nat × ℚ) pairGE := ⟨fun a b => le_total b.2 a.2⟩

instance : IsTrans (Nat × ℚ) pairGE := ⟨fun _ _ _ h1 h2 => le_trans h2 h1⟩

/-- A default chunk record (never reached on well-formed states). -/
def dfltRec : ChunkRecord := ⟨"", [], []⟩

/-- The `RetrievalResult` built from one scored keyword hit. -/
def mkKw (chunks : List ChunkRecord) (p : Nat × ℚ) : RetrievalResult :=
  ⟨(chunks.getD p.1 dfltRec).id, (chunks.getD p.1 dfltRec).content, p.2,
   (chunks.getD p.1 dfltRec).metadata⟩

/-- `HybridRetriever._keyword_search(query, top_k)`. -/
def keywordSearch (st : RetrieverState) (query : List Char) (topK : Nat) :
    List RetrievalResult :=
  ((List.insertionSort pairGE (kwScorePairs st.chunks (wordSet query))).take topK).filterMap
    (fun p =>
      match st.chunks[p.1]? with
      | none => none
      | some c => some ⟨c.id, c.content, p.2, c.metadata⟩)

/-- Python dict assignment `result_map[k] = v` on the insertion-ordered
map. -/
def assocSet : List (String × RetrievalResult) → String → RetrievalResult →
    List (String × RetrievalResult)
  | [], k, v => [(k, v)]
  | (k', v') :: rest, k, v =>
    if k' = k then (k, v) :: rest else (k', v') :: assocSet rest k v

/-- One step of the keyword pass of `HybridRetriever.retrieve`: add
`r.score * (1 - semantic_weight)` to the entry of `r.id` when present, else
append a fresh entry with that score. -/
def assocAddKw (w : ℚ) : List (String × RetrievalResult) → RetrievalResult →
    List (String × RetrievalResult)
  | [], r => [(r.id, { r with score := r.score * (1 - w) })]
  | (k', v') :: rest, r =>
    if k' = r.id then (k', { v' with score := v'.score + r.score * (1 - w) }) :: rest
    else (k', v') :: assocAddKw w rest r

/-- The fused `result_map` of `HybridRetriever.retrieve` (insertion
ordered): the semantic pass stores each semantic result with score
`score * semantic_weight`, then the keyword pass merges the keyword
results. -/
def fuseMap (w : ℚ) (sem kw : List RetrievalResult) :
    List (String × RetrievalResult) :=
  kw.foldl (assocAddKw w)
    (sem.foldl (fun m r => assocSet m r.id { r with score := r.score * w }) [])

/-- `HybridRetriever.retrieve(query, top_k, threshold, rerank,
semantic_weight)`.  (The `rerank` parameter is accepted but never read by
the source.)  Semantic search runs with `top_k * 2` candidates and
`rerank=False`; keyword search is capped at `top_k * 2`; the fused map's
values are stable-sorted by descending score and truncated to `top_k`. -/
def hybridRetrieve (st : RetrieverState) (embedOne : List Char → List ℚ)
    (query : List Char) (topK : Nat) (threshold : ℚ) (rerank : Bool)
    (semWeight : ℚ) : Except String (List RetrievalResult) :=
  match retrieveModel st embedOne query (topK * 2) threshold false with
  | .error e => .error e
  | .ok semanticResults =>
    let keywordResults := keywordSearch st query (topK * 2)
    let values := (fuseMap semWeight semanticResults keywordResults).map (·.2)
    .ok ((List.insertionSort scoreGE values).take topK)

/-- A loaded one-chunk retriever whose single chunk contains the query word
(used to refute the `semantic_weight = 1.0` half of C4). -/
def st4a : RetrieverState := ⟨some [[0]], [⟨"c0", "cat".toList, []⟩]⟩

/-- A loaded one-chunk retriever whose single chunk shares no word with the
query (used to refute the `semantic_weight = 0.0` half of C4). -/
def st4b : RetrieverState := ⟨some [[0]], [⟨"c0", "dog".toList, []⟩]⟩

/-- C4, counterexample.  With `semantic_weight = 1.0`, `top_k = 1` and
`threshold = 0.9` on a one-chunk index whose chunk contains the query word
but sits at similarity `0.5`: pure semantic retrieval returns `[]`, yet the
hybrid retriever returns that chunk (keyword-only hits enter the fused map
with score `keyword_score * (1 - semantic_weight) = 0`).  Dually, with
`semantic_weight = 0.0` and `threshold = 0` on a one-chunk index whose chunk
shares no word with the query: the keyword search returns `[]`, yet the
hybrid retriever returns the chunk with fused score `0` (semantic-only hits
enter the map with score `similarity * semantic_weight = 0`).  So neither
boundary weight reduces hybrid retrieval to the corresponding single-source
ranking. -/
theorem C4_counterexample :
    hybridRetrieve st4a (fun _ => [1]) ("cat".toList) 1 (9/10) true 1
      ≠ retrieveModel st4a (fun _ => [1]) ("cat".toList) 1 (9/10) false ∧
    hybridRetrieve st4b (fun _ => [1]) ("cat".toList) 1 0 true 0
      ≠ .ok (keywordSearch st4b ("cat".toList) 1) := by
  have ha : hybridRetrieve st4a (fun _ => [1]) ("cat".toList) 1 (9/10) true 1
      = .ok [⟨"c0", "cat".toList, 0, []⟩] := by
    norm_num [hybridRetrieve, retrieveModel, faissSearch, distPairs, sqL2, similarity,
      hitToResult, keywordSearch, kwScorePairs, wordSet, interCount, pyWords, pyWordsAux,
      pyLower, pyIsSpace, fuseMap, assocAddKw, assocSet, st4a, List.insertionSort,
      List.orderedInsert, List.dedup, scoreGE, distLE, pairGE, List.filterMap_cons,
      List.foldl_cons, List.foldl_nil]
  have ha2 : retrieveModel st4a (fun _ => [1]) ("cat".toList) 1 (9/10) false
      = .ok [] := by
    norm_num [retrieveModel, faissSearch, distPairs, sqL2, similarity, hitToResult, st4a,
      List.insertionSort, List.orderedInsert, distLE, List.filterMap_cons]
  have hb : hybridRetrieve st4b (fun _ => [1]) ("cat".toList) 1 0 true 0
      = .ok [⟨"c0", "dog".toList, 0, []⟩] := by
    norm_num [hybridRetrieve, retrieveModel, faissSearch, distPairs, sqL2, similarity,
      hitToResult, keywordSearch, kwScorePairs, wordSet, interCount, pyWords, pyWordsAux,
      pyLower, pyIsSpace, fuseMap, assocAddKw, assocSet, st4b, List.insertionSort,
      List.orderedInsert, List.dedup, scoreGE, distLE, pairGE, List.filterMap_cons,
      List.foldl_cons, List.foldl_nil]
  have hb2 : keywordSearch st4b ("cat".toList) 1 = [] := by
    norm_num [keywordSearch, kwScorePairs, wordSet, interCount, pyWords, pyWordsAux,
      pyLower, pyIsSpace, st4b, List.insertionSort, List.dedup]
  constructor
  · rw [ha, ha2]; simp
  · rw [hb, hb2]; simp

theorem filterMap_eq_map_of_forall_some {α β : Type} (f : α → Option β) (g : α → β)
    (l : List α) (h : ∀ a ∈ l, f a = some (g a)) : l.filterMap f = l.map g := by
  induction l with
  | nil => rfl
  | cons a l ih =>
    rw [List.filterMap_cons, h a (List.mem_cons_self a l), List.map_cons,
      ih (fun x hx => h x (List.mem_cons_of_mem a hx))]

/-- A list sorted weakly descending that is a permutation of a strictly
descending list equals it. -/
theorem eq_of_perm_sorted_strict {α : Type} (key : α → ℚ) :
    ∀ (l₂ l₁ : List α), List.Perm l₁ l₂ →
      l₁.Pairwise (fun a b => key b ≤ key a) →
      l₂.Pairwise (fun a b => key b < key a) → l₁ = l₂ := by
  intro l₂
  induction l₂ with
  | nil => intro l₁ hp _ _; exact hp.eq_nil
  | cons y ys ih =>
    intro l₁ hp hs₁ hs₂
    cases l₁ with
    | nil => exact absurd hp.symm.eq_nil (by simp)
    | cons x xs =>
      have hx : x ∈ y :: ys := hp.subset (List.mem_cons_self x xs)
      have hxy : x = y := by
        rcases List.mem_cons.mp hx with h | h
        · exact h
        · exfalso
          have h1 : key x < key y := List.rel_of_pairwise_cons hs₂ h
          have hy : y ∈ x :: xs := hp.symm.subset (List.mem_cons_self y ys)
          rcases List.mem_cons.mp hy with h2 | h2
          · rw [h2] at h1; exact lt_irrefl _ h1
          · exact absurd h1 (not_lt.mpr (List.rel_of_pairwise_cons hs₁ h2))
      subst hxy
      rw [ih xs hp.cons_inv hs₁.of_cons hs₂.of_cons]

theorem assocSet_not_mem (k : String) (v : RetrievalResult) :
    ∀ (m : List (String × RetrievalResult)), k ∉ m.map (·.1) →
      assocSet m k v = m ++ [(k, v)] := by
  intro m
  induction m with
  | nil => intro _; rfl
  | cons e rest ih =>
    intro h
    obtain ⟨k', v'⟩ := e
    rw [List.map_cons, List.mem_cons] at h
    push_neg at h
    rw [assocSet, if_neg (fun he => h.1 he.symm), ih h.2, List.cons_append]

theorem semFold_eq (w : ℚ) :
    ∀ (sem : List RetrievalResult) (m : List (String × RetrievalResult)),
      (∀ r ∈ sem, r.id ∉ m.map (·.1)) → (sem.map (·.id)).Nodup →
      sem.foldl (fun m r => assocSet m r.id { r with score := r.score * w }) m
        = m ++ sem.map (fun r => (r.id, { r with score := r.score * w })) := by
  intro sem
  induction sem with
  | nil => intro m _ _; simp
  | cons r rest ih =>
    intro m hdisj hnd
    rw [List.map_cons, List.nodup_cons] at hnd
    have hdisj' : ∀ r' ∈ rest,
        r'.id ∉ (m ++ [(r.id, { r with score := r.score * w })]).map
          (fun e : String × RetrievalResult => e.1) := by
      intro r' hr'
      rw [List.map_append, List.mem_append]
      push_neg
      refine ⟨hdisj r' (List.mem_cons_of_mem r hr'), ?_⟩
      simp only [List.map_cons, List.map_nil, List.mem_singleton]
      intro he
      exact hnd.1 (he ▸ List.mem_map_of_mem (·.id) hr')
    rw [List.foldl_cons,
      assocSet_not_mem r.id { r with score := r.score * w } m
        (hdisj r (List.mem_cons_self r rest)),
      ih _ hdisj' hnd.2, List.append_assoc, List.singleton_append, List.map_cons]

theorem assocAddKw_not_mem (w : ℚ) (r : RetrievalResult) :
    ∀ (m : List (String × RetrievalResult)), r.id ∉ m.map (·.1) →
      assocAddKw w m r = m ++ [(r.id, { r with score := r.score * (1 - w) })] := by
  intro m
  induction m with
  | nil => intro _; rfl
  | cons e rest ih =>
    intro h
    obtain ⟨k', v'⟩ := e
    rw [List.map_cons, List.mem_cons] at h
    push_neg at h
    rw [assocAddKw, if_neg h.1.symm, ih h.2, List.cons_append]

/-- The in-place update applied by one keyword-pass step to a map entry. -/
def bump1 (w : ℚ) (r : RetrievalResult) (e : String × RetrievalResult) :
    String × RetrievalResult :=
  if e.1 = r.id then (e.1, { e.2 with score := e.2.score + r.score * (1 - w) }) else e

theorem assocAddKw_mem (w : ℚ) (r : RetrievalResult) :
    ∀ (m : List (String × RetrievalResult)), (m.map (·.1)).Nodup →
      r.id ∈ m.map (·.1) → assocAddKw w m r = m.map (bump1 w r) := by
  intro m
  induction m with
  | nil => intro _ h; exact absurd h (by simp)
  | cons e rest ih =>
    intro hnd hmem
    obtain ⟨k', v'⟩ := e
    rw [List.map_cons, List.nodup_cons] at hnd
    by_cases hk : k' = r.id
    · rw [assocAddKw, if_pos hk, List.map_cons]
      have h1 : bump1 w r (k', v') = (k', { v' with score := v'.score + r.score * (1 - w) }) := by
        rw [bump1, if_pos hk]
      rw [h1]
      have h2 : rest.map (bump1 w r) = rest := by
        refine (List.map_congr_left ?_).trans (List.map_id rest)
        intro e' he'
        have hne : e'.1 ≠ r.id := fun he =>
          hnd.1 (hk ▸ he ▸ List.mem_map_of_mem (fun x => x.1) he')
        rw [bump1, if_neg hne]
        rfl
      rw [h2]
    · rw [List.map_cons, List.mem_cons] at hmem
      rcases hmem with h | h
      · exact absurd h.symm hk
      · rw [assocAddKw, if_neg hk, ih hnd.2 h, List.map_cons]
        have : bump1 w r (k', v') = (k', v') := by rw [bump1, if_neg hk]
        rw [this]

/-- `kw.find?` by id: the keyword result merged into the map entry of a
given id, if any. -/
def kwFind (kw : List RetrievalResult) (k : String) : Option RetrievalResult :=
  kw.find? (fun r => decide (r.id = k))

/-- The total effect of the keyword pass on one pre-existing map entry. -/
def bumpBy (w : ℚ) (kw : List RetrievalResult) (e : String × RetrievalResult) :
    String × RetrievalResult :=
  match kwFind kw e.1 with
  | some r => (e.1, { e.2 with score := e.2.score + r.score * (1 - w) })
  | none => e

theorem bump1_keys (w : ℚ) (r : RetrievalResult)
    (m : List (String × RetrievalResult)) :
    (m.map (bump1 w r)).map (fun e => e.1) = m.map (fun e => e.1) := by
  rw [List.map_map]
  refine List.map_congr_left ?_
  intro e _
  simp only [Function.comp_apply, bump1]
  by_cases h : e.1 = r.id <;> simp [h]

/-- Characterisation of the keyword pass of `HybridRetriever.retrieve`: each
pre-existing map entry is bumped by its unique matching keyword result (if
any), and the unmatched keyword results are appended in order. -/
theorem kwFold_char (w : ℚ) :
    ∀ (kw : List RetrievalResult) (m : List (String × RetrievalResult)),
      (kw.map (·.id)).Nodup → (m.map (fun e => e.1)).Nodup →
      kw.foldl (assocAddKw w) m
        = m.map (bumpBy w kw)
          ++ (kw.filter (fun r => decide (r.id ∉ m.map (fun e => e.1)))).map
               (fun r => (r.id, { r with score := r.score * (1 - w) })) := by
  intro kw
  induction kw with
  | nil =>
    intro m _ _
    simp only [List.foldl_nil, List.filter_nil, List.map_nil, List.append_nil]
    refine ((List.map_congr_left ?_).trans (List.map_id m)).symm
    intro e _
    rw [bumpBy, kwFind]
    simp
  | cons r kw' ih =>
    intro m hknd hmnd
    rw [List.map_cons, List.nodup_cons] at hknd
    rw [List.foldl_cons]
    by_cases hr : r.id ∈ m.map (fun e : String × RetrievalResult => e.1)
    · rw [assocAddKw_mem w r m hmnd hr]
      have hmnd' : ((m.map (bump1 w r)).map (fun e => e.1)).Nodup := by
        rw [bump1_keys]; exact hmnd
      rw [ih _ hknd.2 hmnd']
      have hmaps : (m.map (bump1 w r)).map (bumpBy w kw')
          = m.map (bumpBy w (r :: kw')) := by
        rw [List.map_map]
        refine List.map_congr_left ?_
        intro e _
        simp only [Function.comp_apply]
        by_cases hek : e.1 = r.id
        · have hfind' : kwFind kw' e.1 = none := by
            rw [kwFind]
            refine List.find?_eq_none.mpr ?_
            intro x hx
            simp only [decide_eq_true_eq]
            intro hxe
            exact hknd.1 (hek ▸ hxe ▸ List.mem_map_of_mem (·.id) hx)
          have hfind : kwFind (r :: kw') e.1 = some r := by
            rw [kwFind, List.find?_cons_of_pos]
            simp [hek]
          rw [bump1, if_pos hek, bumpBy, bumpBy]
          simp only [hfind', hfind]
        · have hfind2 : kwFind (r :: kw') e.1 = kwFind kw' e.1 := by
            rw [kwFind, kwFind, List.find?_cons_of_neg]
            simp only [decide_eq_true_eq]
            exact fun he => hek he.symm
          rw [bump1, if_neg hek, bumpBy, bumpBy, hfind2]
      have hfilters : kw'.filter
            (fun x => decide (x.id ∉ (m.map (bump1 w r)).map (fun e => e.1)))
          = kw'.filter (fun x => decide (x.id ∉ m.map (fun e => e.1))) := by
        refine List.filter_congr ?_
        intro x _
        rw [bump1_keys]
      have hfilterc : (r :: kw').filter
            (fun x => decide (x.id ∉ m.map (fun e => e.1)))
          = kw'.filter (fun x => decide (x.id ∉ m.map (fun e => e.1))) := by
        rw [List.filter_cons]
        simp [hr]
      rw [hmaps, hfilters, hfilterc]
    · rw [assocAddKw_not_mem w r m hr]
      have hkeys2 : (m ++ [(r.id, { r with score := r.score * (1 - w) })]).map
            (fun e : String × RetrievalResult => e.1)
          = m.map (fun e => e.1) ++ [r.id] := by
        simp
      have hmnd2 : ((m ++ [(r.id, { r with score := r.score * (1 - w) })]).map
            (fun e : String × RetrievalResult => e.1)).Nodup := by
        rw [hkeys2, List.nodup_append]
        exact ⟨hmnd, List.nodup_singleton r.id, by simpa using hr⟩
      rw [ih _ hknd.2 hmnd2]
      have hmaps2 : (m ++ [(r.id, { r with score := r.score * (1 - w) })]).map
            (bumpBy w kw')
          = m.map (bumpBy w (r :: kw'))
            ++ [(r.id, { r with score := r.score * (1 - w) })] := by
        rw [List.map_append]
        congr 1
        · refine List.map_congr_left ?_
          intro e he
          have hek : e.1 ≠ r.id := by
            intro he2
            exact hr (he2 ▸ List.mem_map_of_mem (fun x : String × RetrievalResult => x.1) he)
          rw [bumpBy, bumpBy]
          have hfind2 : kwFind (r :: kw') e.1 = kwFind kw' e.1 := by
            rw [kwFind, kwFind, List.find?_cons_of_neg]
            simp only [decide_eq_true_eq]
            exact fun he3 => hek he3.symm
          rw [hfind2]
        · have hfind' : kwFind kw' r.id = none := by
            rw [kwFind]
            refine List.find?_eq_none.mpr ?_
            intro x hx
            simp only [decide_eq_true_eq]
            intro hxe
            exact hknd.1 (hxe ▸ List.mem_map_of_mem (·.id) hx)
          simp only [List.map_cons, List.map_nil, bumpBy, hfind']
      have hfilters2 : kw'.filter (fun x => decide (x.id ∉
            (m ++ [(r.id, { r with score := r.score * (1 - w) })]).map
              (fun e : String × RetrievalResult => e.1)))
          = kw'.filter (fun x => decide (x.id ∉ m.map (fun e => e.1))) := by
        refine List.filter_congr ?_
        intro x hx
        rw [hkeys2]
        have hxr : x.id ≠ r.id := fun he =>
          hknd.1 (he ▸ List.mem_map_of_mem (·.id) hx)
        simp [hxr]
      have hfilterc2 : (r :: kw').filter
            (fun x => decide (x.id ∉ m.map (fun e => e.1)))
          = r :: kw'.filter (fun x => decide (x.id ∉ m.map (fun e => e.1))) := by
        rw [List.filter_cons]
        simp [hr]
      rw [hmaps2, hfilters2, hfilterc2, List.map_cons, List.append_assoc,
        List.singleton_append]

theorem sqL2_nonneg (u v : List ℚ) : 0 ≤ sqL2 u v := by
  refine List.sum_nonneg ?_
  intro x hx
  obtain ⟨p, _, rfl⟩ := List.mem_map.mp hx
  exact sq_nonneg _

theorem similarity_pos {d : ℚ} (hd : 0 ≤ d) : 0 < similarity d := by
  rw [similarity]
  exact div_pos one_pos (by linarith)

theorem similarity_antitone {d1 d2 : ℚ} (h0 : 0 ≤ d1) (h : d1 ≤ d2) :
    similarity d2 ≤ similarity d1 := by
  rw [similarity, similarity]
  exact one_div_le_one_div_of_le (by linarith) (by linarith)

/-- All FAISS candidates, sorted (the untruncated search result). -/
def sortedCands (vecs : List (List ℚ)) (q : List ℚ) : List (ℚ × Nat) :=
  List.insertionSort distLE (distPairs vecs q)

theorem faissSearch_eq (vecs : List (List ℚ)) (q : List ℚ) (k : Nat) :
    faissSearch vecs q k = (sortedCands vecs q).take k := rfl

theorem sortedCands_perm (vecs : List (List ℚ)) (q : List ℚ) :
    List.Perm (sortedCands vecs q) (distPairs vecs q) :=
  List.perm_insertionSort distLE (distPairs vecs q)

theorem sortedCands_length (vecs : List (List ℚ)) (q : List ℚ) :
    (sortedCands vecs q).length = vecs.length := by
  rw [(sortedCands_perm vecs q).length_eq, distPairs, List.length_map,
    List.enum_length]

theorem sortedCands_mem {vecs : List (List ℚ)} {q : List ℚ} {p : ℚ × Nat}
    (h : p ∈ sortedCands vecs q) : p.2 < vecs.length ∧ 0 ≤ p.1 := by
  have h2 : p ∈ distPairs vecs q := (sortedCands_perm vecs q).subset h
  obtain ⟨⟨i, v⟩, hm, rfl⟩ := List.mem_map.mp h2
  exact ⟨List.fst_lt_of_mem_enum hm, sqL2_nonneg _ _⟩

theorem sortedCands_sorted (vecs : List (List ℚ)) (q : List ℚ) :
    (sortedCands vecs q).Sorted distLE :=
  List.sorted_insertionSort distLE (distPairs vecs q)

theorem distPairs_snd (vecs : List (List ℚ)) (q : List ℚ) :
    (distPairs vecs q).map (·.2) = List.range vecs.length := by
  rw [distPairs, List.map_map]
  exact List.enum_map_fst vecs

theorem sortedCands_snd_nodup (vecs : List (List ℚ)) (q : List ℚ) :
    ((sortedCands vecs q).map (·.2)).Nodup := by
  have hp : List.Perm ((sortedCands vecs q).map (·.2)) ((distPairs vecs q).map (·.2)) :=
    (sortedCands_perm vecs q).map (·.2)
  rw [hp.nodup_iff, distPairs_snd]
  exact List.nodup_range vecs.length

/-- The retrieval result of one in-range hit at threshold `0`. -/
def resOfD (chunks : List ChunkRecord) (p : ℚ × Nat) : RetrievalResult :=
  ⟨(chunks.getD p.2 dfltRec).id, (chunks.getD p.2 dfltRec).content, similarity p.1,
   (chunks.getD p.2 dfltRec).metadata⟩

theorem hitToResult_total {chunks : List ChunkRecord} {p : ℚ × Nat}
    (hb : p.2 < chunks.length) (hs : (0 : ℚ) ≤ p.1) :
    hitToResult chunks 0 p = some (resOfD chunks p) := by
  unfold hitToResult
  cases hc : chunks[p.2]? with
  | none =>
    rw [List.getElem?_eq_none_iff] at hc
    omega
  | some c =>
    simp only [hc]
    rw [if_pos (le_of_lt (similarity_pos hs))]
    have hgd : chunks.getD p.2 dfltRec = c := by
      rw [List.getD_eq_getElem?_getD, hc]
      rfl
    rw [resOfD, hgd]

/-- `RAGRetriever.retrieve` with `threshold = 0` and `rerank = False` over an
aligned snapshot returns exactly the first `m` candidates, converted. -/
theorem retrieve_ok_eq (st : RetrieverState) (vecs : List (List ℚ))
    (embedOne : List Char → List ℚ) (query : List Char) (m : Nat)
    (hidx : st.index = some vecs) (hlen : vecs.length = st.chunks.length) :
    retrieveModel st embedOne query m 0 false
      = .ok (((sortedCands vecs (embedOne query)).take m).map (resOfD st.chunks)) := by
  have h2 : ((sortedCands vecs (embedOne query)).take m).filterMap
        (hitToResult st.chunks 0)
      = ((sortedCands vecs (embedOne query)).take m).map (resOfD st.chunks) := by
    refine filterMap_eq_map_of_forall_some _ _ _ ?_
    intro p hp
    have hp2 := sortedCands_mem (List.mem_of_mem_take hp)
    exact hitToResult_total (hlen ▸ hp2.1) hp2.2
  simp only [retrieveModel, hidx, Bool.false_eq_true, if_false, faissSearch_eq]
  rw [h2, List.take_of_length_le]
  rw [List.length_map, List.length_take]
  omega

theorem id_getD_inj {chunks : List ChunkRecord} (h : (chunks.map (·.id)).Nodup)
    {i j : Nat} (hi : i < chunks.length) (hj : j < chunks.length)
    (he : (chunks.getD i dfltRec).id = (chunks.getD j dfltRec).id) : i = j := by
  rw [List.getD_eq_getElem chunks dfltRec hi, List.getD_eq_getElem chunks dfltRec hj] at he
  have hb1 : i < (chunks.map (·.id)).length := by simpa using hi
  have hb2 : j < (chunks.map (·.id)).length := by simpa using hj
  refine (@List.Nodup.getElem_inj_iff _ _ h i hb1 j hb2).mp ?_
  rw [List.getElem_map, List.getElem_map]
  exact he

/-- Entries derived from distinct in-range chunk indices have distinct ids
when the snapshot's chunk ids are distinct. -/
theorem map_getD_id_nodup {chunks : List ChunkRecord}
    (hids : (chunks.map (·.id)).Nodup) {α : Type} (idx : α → Nat) (l : List α)
    (hb : ∀ p ∈ l, idx p < chunks.length) (hnd : (l.map idx).Nodup) :
    (l.map (fun p => (chunks.getD (idx p) dfltRec).id)).Nodup := by
  have hinj := List.inj_on_of_nodup_map hnd
  refine List.Nodup.map_on ?_ (hnd.of_map idx)
  intro p hp p' hp' he
  exact hinj hp hp' (id_getD_inj hids (hb p hp) (hb p' hp') he)

theorem filterMap_fst_sublist {α β γ : Type} (f : α → γ) (g : α → Option β) (h : β → γ)
    (hpres : ∀ a b, g a = some b → h b = f a) (l : List α) :
    ((l.filterMap g).map h).Sublist (l.map f) := by
  induction l with
  | nil => simp
  | cons a l ih =>
    rw [List.filterMap_cons]
    cases hg : g a with
    | none => rw [List.map_cons]; exact ih.cons (f a)
    | some b => rw [List.map_cons, List.map_cons, hpres a b hg]; exact ih.cons₂ (f a)

theorem kwScorePairs_mem {chunks : List ChunkRecord} {qw : List (List Char)}
    {p : Nat × ℚ} (h : p ∈ kwScorePairs chunks qw) : p.1 < chunks.length := by
  simp only [kwScorePairs] at h
  obtain ⟨⟨i, c⟩, hm, he⟩ := List.mem_filterMap.mp h
  by_cases h0 : 0 < interCount qw (wordSet c.content)
  · rw [if_pos h0] at he
    cases he
    exact List.fst_lt_of_mem_enum hm
  · rw [if_neg h0] at he
    exact absurd he (by simp)

theorem kwScorePairs_fst_nodup (chunks : List ChunkRecord) (qw : List (List Char)) :
    ((kwScorePairs chunks qw).map (·.1)).Nodup := by
  have hsub : ((kwScorePairs chunks qw).map (·.1)).Sublist
      ((chunks.enum).map (fun e => e.1)) := by
    rw [kwScorePairs]
    refine filterMap_fst_sublist _ _ _ ?_ _
    intro a b hg
    by_cases h0 : 0 < interCount qw (wordSet a.2.content)
    · rw [if_pos h0] at hg
      cases hg
      rfl
    · rw [if_neg h0] at hg
      exact absurd hg (by simp)
  have : ((chunks.enum).map (fun e => e.1)).Nodup := by
    rw [List.enum_map_fst]
    exact List.nodup_range chunks.length
  exact this.sublist hsub

/-- All keyword hits, sorted (the untruncated `_keyword_search` ranking). -/
def sortedKw (chunks : List ChunkRecord) (qw : List (List Char)) : List (Nat × ℚ) :=
  List.insertionSort pairGE (kwScorePairs chunks qw)

theorem sortedKw_perm (chunks : List ChunkRecord) (qw : List (List Char)) :
    List.Perm (sortedKw chunks qw) (kwScorePairs chunks qw) :=
  List.perm_insertionSort pairGE (kwScorePairs chunks qw)

theorem sortedKw_mem {chunks : List ChunkRecord} {qw : List (List Char)}
    {p : Nat × ℚ} (h : p ∈ sortedKw chunks qw) : p.1 < chunks.length :=
  kwScorePairs_mem ((sortedKw_perm chunks qw).subset h)

theorem sortedKw_fst_nodup (chunks : List ChunkRecord) (qw : List (List Char)) :
    ((sortedKw chunks qw).map (·.1)).Nodup := by
  have hp : List.Perm ((sortedKw chunks qw).map (·.1))
      ((kwScorePairs chunks qw).map (·.1)) := (sortedKw_perm chunks qw).map (·.1)
  rw [hp.nodup_iff]
  exact kwScorePairs_fst_nodup chunks qw

theorem keywordSearch_eq_map (st : RetrieverState) (query : List Char) (k : Nat) :
    keywordSearch st query k
      = ((sortedKw st.chunks (wordSet query)).take k).map (mkKw st.chunks) := by
  rw [keywordSearch]
  refine filterMap_eq_map_of_forall_some _ _ _ ?_
  intro p hp
  have hb : p.1 < st.chunks.length := sortedKw_mem (List.mem_of_mem_take hp)
  cases hc : st.chunks[p.1]? with
  | none =>
    rw [List.getElem?_eq_none_iff] at hc
    omega
  | some c =>
    simp only [hc]
    have hgd : st.chunks.getD p.1 dfltRec = c := by
      rw [List.getD_eq_getElem?_getD, hc]
      rfl
    rw [mkKw, hgd]

/-- When every chunk shares a word with the query, the keyword scoring
covers every chunk. -/
theorem kwScorePairs_total {chunks : List ChunkRecord} {qw : List (List Char)}
    (hm : ∀ c ∈ chunks, 0 < interCount qw (wordSet c.content)) :
    kwScorePairs chunks qw
      = (chunks.enum).map (fun p =>
          (p.1, (interCount qw (wordSet p.2.content) : ℚ) / (qw.length : ℚ))) := by
  rw [kwScorePairs]
  refine filterMap_eq_map_of_forall_some _ _ _ ?_
  intro p hp
  have h0 := hm p.2 (List.snd_mem_of_mem_enum hp)
  simp only [if_pos h0]

theorem sortedKw_strict {chunks : List ChunkRecord} {qw : List (List Char)}
    (hdist : ((kwScorePairs chunks qw).map (·.2)).Nodup) :
    (sortedKw chunks qw).Pairwise (fun a b => b.2 < a.2) := by
  have hsorted : (sortedKw chunks qw).Pairwise pairGE :=
    List.sorted_insertionSort pairGE (kwScorePairs chunks qw)
  have hnd : ((sortedKw chunks qw).map (·.2)).Nodup := by
    have hp : List.Perm ((sortedKw chunks qw).map (·.2))
        ((kwScorePairs chunks qw).map (·.2)) := (sortedKw_perm chunks qw).map (·.2)
    rw [hp.nodup_iff]
    exact hdist
  have hne : (sortedKw chunks qw).Pairwise (fun a b => ¬ a.2 = b.2) :=
    List.pairwise_map.mp hnd
  exact (hsorted.and hne).imp (fun h => lt_of_le_of_ne h.1 (fun he => h.2 he.symm))

theorem score_mul_one (r : RetrievalResult) :
    ({ r with score := r.score * 1 } : RetrievalResult) = r := by
  cases r
  simp

theorem bumpBy_one (kw : List RetrievalResult) (e : String × RetrievalResult) :
    bumpBy 1 kw e = e := by
  rw [bumpBy]
  cases hf : kwFind kw e.1 with
  | none => rfl
  | some r =>
    obtain ⟨k, v⟩ := e
    cases v
    norm_num

theorem sem_results_sorted (vecs : List (List ℚ)) (q : List ℚ)
    (chunks : List ChunkRecord) (m : Nat) :
    (((sortedCands vecs q).take m).map (resOfD chunks)).Pairwise scoreGE := by
  have h1 : ((sortedCands vecs q).take m).Pairwise distLE :=
    (sortedCands_sorted vecs q).sublist (List.take_sublist m _)
  rw [List.pairwise_map]
  refine List.Pairwise.imp_of_mem ?_ h1
  intro a b ha hb hab
  have ha2 := sortedCands_mem (List.mem_of_mem_take ha)
  exact similarity_antitone ha2.2 hab

theorem sem_results_ids_nodup (vecs : List (List ℚ)) (q : List ℚ)
    (chunks : List ChunkRecord) (m : Nat)
    (hids : (chunks.map (·.id)).Nodup) (hlen : vecs.length = chunks.length) :
    ((((sortedCands vecs q).take m).map (resOfD chunks)).map (·.id)).Nodup := by
  rw [List.map_map]
  have := map_getD_id_nodup hids (fun p : ℚ × Nat => p.2) ((sortedCands vecs q).take m)
    (fun p hp => hlen ▸ (sortedCands_mem (List.mem_of_mem_take hp)).1)
    (((sortedCands_snd_nodup vecs q)).sublist
      ((List.take_sublist m _).map (fun p : ℚ × Nat => p.2)))
  exact this

theorem kw_results_ids_nodup (st : RetrieverState) (query : List Char) (m : Nat)
    (hids : (st.chunks.map (·.id)).Nodup) :
    ((keywordSearch st query m).map (·.id)).Nodup := by
  rw [keywordSearch_eq_map, List.map_map]
  exact map_getD_id_nodup hids (fun p : Nat × ℚ => p.1)
    ((sortedKw st.chunks (wordSet query)).take m)
    (fun p hp => sortedKw_mem (List.mem_of_mem_take hp))
    ((sortedKw_fst_nodup st.chunks (wordSet query)).sublist
      ((List.take_sublist m _).map (fun p : Nat × ℚ => p.1)))

theorem cands_ids_cover (vecs : List (List ℚ)) (q : List ℚ)
    (chunks : List ChunkRecord) (hlen : vecs.length = chunks.length)
    (i : Nat) (hi : i < chunks.length) :
    (chunks.getD i dfltRec).id
      ∈ ((sortedCands vecs q).map (resOfD chunks)).map (·.id) := by
  have hi' : i < vecs.length := by omega
  have hmem : i ∈ (distPairs vecs q).map (·.2) := by
    rw [distPairs_snd]
    exact List.mem_range.mpr hi'
  obtain ⟨pd, hpd, he⟩ := List.mem_map.mp hmem
  have hc : pd ∈ sortedCands vecs q := (sortedCands_perm vecs q).symm.subset hpd
  rw [List.map_map]
  exact List.mem_map.mpr ⟨pd, hc, by rw [Function.comp_apply, resOfD, he]⟩

theorem hybrid_weight_one (st : RetrieverState) (embedOne : List Char → List ℚ)
    (query : List Char) (topK : Nat) (rerank : Bool) (vecs : List (List ℚ))
    (hidx : st.index = some vecs) (hlen : vecs.length = st.chunks.length)
    (hids : (st.chunks.map (·.id)).Nodup) :
    hybridRetrieve st embedOne query topK 0 rerank 1
      = retrieveModel st embedOne query topK 0 false := by
  have hsem2k : retrieveModel st embedOne query (topK * 2) 0 false
      = .ok (((sortedCands vecs (embedOne query)).take (topK * 2)).map
          (resOfD st.chunks)) :=
    retrieve_ok_eq st vecs embedOne query (topK * 2) hidx hlen
  set q := embedOne query with hq
  set C := sortedCands vecs q with hC
  set sem := (C.take (topK * 2)).map (resOfD st.chunks) with hsem
  set kwL := keywordSearch st query (topK * 2) with hkwL
  have hsemids : (sem.map (·.id)).Nodup :=
    sem_results_ids_nodup vecs q st.chunks (topK * 2) hids hlen
  have hkwids : (kwL.map (·.id)).Nodup := kw_results_ids_nodup st query (topK * 2) hids
  have hM0 : sem.foldl (fun m r => assocSet m r.id { r with score := r.score * 1 }) []
      = sem.map (fun r => (r.id, { r with score := r.score * 1 })) := by
    have := semFold_eq 1 sem [] (by simp) hsemids
    simpa using this
  have hkeys : (sem.map (fun r => (r.id, { r with score := r.score * 1 }))).map
      (fun e => e.1) = sem.map (·.id) := by
    rw [List.map_map]
    rfl
  have hfuse : fuseMap 1 sem kwL
      = (sem.map (fun r => (r.id, { r with score := r.score * 1 }))).map (bumpBy 1 kwL)
        ++ (kwL.filter (fun r => decide (r.id ∉
            (sem.map (fun r => (r.id, { r with score := r.score * 1 }))).map
              (fun e => e.1)))).map
             (fun r => (r.id, { r with score := r.score * (1 - 1) })) := by
    rw [fuseMap, hM0]
    exact kwFold_char 1 kwL _ hkwids (by rw [hkeys]; exact hsemids)
  have hvals : (fuseMap 1 sem kwL).map (fun e => e.2)
      = sem ++ (kwL.filter (fun r => decide (r.id ∉ sem.map (·.id)))).map
          (fun r => { r with score := r.score * (1 - 1) }) := by
    rw [hfuse, List.map_append]
    congr 1
    · have hb : (sem.map (fun r => (r.id, { r with score := r.score * 1 }))).map
          (bumpBy 1 kwL)
          = sem.map (fun r => (r.id, { r with score := r.score * 1 })) :=
        (List.map_congr_left (fun e _ => bumpBy_one kwL e)).trans (List.map_id _)
      rw [hb, List.map_map]
      exact (List.map_congr_left (fun r _ => score_mul_one r)).trans (List.map_id _)
    · rw [hkeys, List.map_map]
      rfl
  set Z := (kwL.filter (fun r => decide (r.id ∉ sem.map (·.id)))).map
      (fun r => { r with score := r.score * (1 - 1) }) with hZ
  have hzscore : ∀ z ∈ Z, z.score = 0 := by
    intro z hz
    rw [hZ] at hz
    obtain ⟨r, _, rfl⟩ := List.mem_map.mp hz
    show r.score * (1 - 1) = 0
    ring
  have hsemscore : ∀ s ∈ sem, 0 ≤ s.score := by
    intro s hs
    rw [hsem] at hs
    obtain ⟨p, hp, rfl⟩ := List.mem_map.mp hs
    exact le_of_lt (similarity_pos (sortedCands_mem (List.mem_of_mem_take hp)).2)
  have hVsorted : (sem ++ Z).Pairwise scoreGE := by
    refine List.pairwise_append.mpr
      ⟨sem_results_sorted vecs q st.chunks (topK * 2), ?_, ?_⟩
    · refine List.pairwise_of_forall_mem_list ?_
      intro a ha b hb
      rw [scoreGE, hzscore a ha, hzscore b hb]
    · intro a ha b hb
      rw [scoreGE, hzscore b hb]
      exact hsemscore a ha
  have hsort : List.insertionSort scoreGE (sem ++ Z) = sem ++ Z :=
    List.Sorted.insertionSort_eq hVsorted
  simp only [hybridRetrieve, hsem2k]
  rw [hvals, hsort, retrieve_ok_eq st vecs embedOne query topK hidx hlen]
  congr 1
  by_cases hk : topK ≤ sem.length
  · rw [List.take_append_of_le_length hk, hsem, ← List.map_take, List.take_take,
      Nat.min_eq_left (by omega)]
  · push_neg at hk
    have hsl : sem.length = min (topK * 2) vecs.length := by
      rw [hsem, List.length_map, List.length_take, hC, sortedCands_length]
    have hn : vecs.length < topK := by omega
    have hCfull : C.take (topK * 2) = C := by
      rw [hC]
      exact List.take_of_length_le (by rw [sortedCands_length]; omega)
    have hZnil : Z = [] := by
      rw [hZ]
      have hfnil : kwL.filter (fun r => decide (r.id ∉ sem.map (·.id))) = [] := by
        refine List.filter_eq_nil_iff.mpr ?_
        intro r hr
        simp only [decide_eq_true_eq, not_not]
        rw [hkwL, keywordSearch_eq_map] at hr
        obtain ⟨p, hp, rfl⟩ := List.mem_map.mp hr
        have hbnd : p.1 < st.chunks.length := sortedKw_mem (List.mem_of_mem_take hp)
        show (st.chunks.getD p.1 dfltRec).id ∈ sem.map (·.id)
        rw [hsem, hCfull]
        exact cands_ids_cover vecs q st.chunks hlen p.1 hbnd
      rw [hfnil]
      rfl
    rw [hZnil, List.append_nil, hsem, hCfull,
      List.take_of_length_le (le_of_lt (by rw [List.length_map, sortedCands_length]; omega)),
      List.take_of_length_le (le_of_lt (by rw [sortedCands_length]; omega))]

theorem kw_ids_cover (st : RetrieverState) (query : List Char)
    (hmatch : ∀ c ∈ st.chunks, 0 < interCount (wordSet query) (wordSet c.content))
    (i : Nat) (hi : i < st.chunks.length) :
    ∃ p ∈ sortedKw st.chunks (wordSet query), p.1 = i := by
  have h1 : (kwScorePairs st.chunks (wordSet query)).map (·.1)
      = List.range st.chunks.length := by
    rw [kwScorePairs_total hmatch, List.map_map]
    exact List.enum_map_fst st.chunks
  have h2 : i ∈ (kwScorePairs st.chunks (wordSet query)).map (·.1) := by
    rw [h1]
    exact List.mem_range.mpr hi
  obtain ⟨p, hp, he⟩ := List.mem_map.mp h2
  exact ⟨p, (sortedKw_perm _ _).symm.subset hp, he⟩

theorem hybrid_weight_zero (st : RetrieverState) (embedOne : List Char → List ℚ)
    (query : List Char) (topK : Nat) (rerank : Bool) (vecs : List (List ℚ))
    (hidx : st.index = some vecs) (hlen : vecs.length = st.chunks.length)
    (hids : (st.chunks.map (·.id)).Nodup)
    (hmatch : ∀ c ∈ st.chunks, 0 < interCount (wordSet query) (wordSet c.content))
    (hdist : ((kwScorePairs st.chunks (wordSet query)).map (·.2)).Nodup)
    (hnk : st.chunks.length ≤ topK) :
    hybridRetrieve st embedOne query topK 0 rerank 0
      = .ok (keywordSearch st query topK) := by
  have hsem2k : retrieveModel st embedOne query (topK * 2) 0 false
      = .ok (((sortedCands vecs (embedOne query)).take (topK * 2)).map
          (resOfD st.chunks)) :=
    retrieve_ok_eq st vecs embedOne query (topK * 2) hidx hlen
  set q := embedOne query with hq
  set C := sortedCands vecs q with hC
  have hClen : C.length = st.chunks.length := by rw [hC, sortedCands_length, hlen]
  have hCfull : C.take (topK * 2) = C :=
    List.take_of_length_le (by omega)
  set sem := (C.take (topK * 2)).map (resOfD st.chunks) with hsem
  have hsemC : sem = C.map (resOfD st.chunks) := by rw [hsem, hCfull]
  set qw := wordSet query with hqw
  set SK := sortedKw st.chunks qw with hSK
  have hkwlen : (kwScorePairs st.chunks qw).length = st.chunks.length := by
    rw [kwScorePairs_total hmatch, List.length_map, List.enum_length]
  have hSKlen : SK.length = st.chunks.length := by
    rw [hSK, (sortedKw_perm st.chunks qw).length_eq, hkwlen]
  set R := SK.map (mkKw st.chunks) with hR
  have hRlen : R.length = st.chunks.length := by rw [hR, List.length_map, hSKlen]
  have hkwfull : ∀ m, st.chunks.length ≤ m → keywordSearch st query m = R := by
    intro m hm
    rw [keywordSearch_eq_map, hR, hSK]
    congr 1
    exact List.take_of_length_le (by rw [← hSK, hSKlen]; omega)
  have hkwL : keywordSearch st query (topK * 2) = R := hkwfull (topK * 2) (by omega)
  have hsemids : (sem.map (·.id)).Nodup :=
    sem_results_ids_nodup vecs q st.chunks (topK * 2) hids hlen
  have hkwids : (R.map (·.id)).Nodup := by
    rw [← hkwL]
    exact kw_results_ids_nodup st query (topK * 2) hids
  -- the semantic pass of the fused map
  have hM0 : sem.foldl (fun m r => assocSet m r.id { r with score := r.score * 0 }) []
      = sem.map (fun r => (r.id, { r with score := r.score * 0 })) := by
    have := semFold_eq 0 sem [] (by simp) hsemids
    simpa using this
  have hkeys : (sem.map (fun r => (r.id, { r with score := r.score * 0 }))).map
      (fun e => e.1) = sem.map (·.id) := by
    rw [List.map_map]
    rfl
  -- every keyword result's id is already a key of the semantic map
  have hcover : ∀ r ∈ R, r.id ∈ sem.map (·.id) := by
    intro r hr
    rw [hR] at hr
    obtain ⟨p, hp, rfl⟩ := List.mem_map.mp hr
    have hbnd : p.1 < st.chunks.length := sortedKw_mem (hSK ▸ hp)
    show (st.chunks.getD p.1 dfltRec).id ∈ sem.map (·.id)
    rw [hsemC, hC]
    exact cands_ids_cover vecs q st.chunks hlen p.1 hbnd
  have hfnil : R.filter (fun r => decide (r.id ∉
      (sem.map (fun r => (r.id, { r with score := r.score * 0 }))).map
        (fun e => e.1))) = [] := by
    refine List.filter_eq_nil_iff.mpr ?_
    intro r hr
    simp only [decide_eq_true_eq, not_not]
    rw [hkeys]
    exact hcover r hr
  have hfuse : fuseMap 0 sem R
      = (sem.map (fun r => (r.id, { r with score := r.score * 0 }))).map (bumpBy 0 R) := by
    rw [fuseMap, hM0,
      kwFold_char 0 R _ hkwids (by rw [hkeys]; exact hsemids), hfnil]
    simp
  -- the fused values, as a map over the semantic results
  have hvals : (fuseMap 0 sem R).map (fun e => e.2)
      = sem.map (fun r =>
          (bumpBy 0 R (r.id, { r with score := r.score * 0 })).2) := by
    rw [hfuse, List.map_map, List.map_map]
    rfl
  -- each fused value is the keyword result with the same id
  have hmemR : ∀ v ∈ (fuseMap 0 sem R).map (fun e => e.2), v ∈ R := by
    intro v hv
    rw [hvals] at hv
    obtain ⟨r, hrs, rfl⟩ := List.mem_map.mp hv
    rw [hsemC] at hrs
    obtain ⟨p, hpC, rfl⟩ := List.mem_map.mp hrs
    have hp2 : p.2 < st.chunks.length := hlen ▸ (sortedCands_mem (hC ▸ hpC)).1
    cases hf : kwFind R (resOfD st.chunks p).id with
    | none =>
      exfalso
      have hnone := List.find?_eq_none.mp hf
      obtain ⟨p', hp', he'⟩ := kw_ids_cover st query hmatch p.2 hp2
      have hmem : mkKw st.chunks p' ∈ R := by
        rw [hR]
        exact List.mem_map_of_mem (mkKw st.chunks) (hSK ▸ hp')
      refine hnone _ hmem ?_
      simp only [decide_eq_true_eq]
      show (st.chunks.getD p'.1 dfltRec).id = (st.chunks.getD p.2 dfltRec).id
      rw [he']
    | some kr =>
      have hkrR : kr ∈ R := List.mem_of_find?_eq_some hf
      have hkrid : kr.id = (resOfD st.chunks p).id := by
        have := List.find?_some hf
        simpa using this
      obtain ⟨p', hp', rfl⟩ := List.mem_map.mp (hR ▸ hkrR)
      have hb' : p'.1 < st.chunks.length := sortedKw_mem (hSK ▸ hp')
      have hpi : p'.1 = p.2 := id_getD_inj hids hb' hp2 hkrid
      have hveq : (bumpBy 0 R ((resOfD st.chunks p).id,
          { resOfD st.chunks p with score := (resOfD st.chunks p).score * 0 })).2
          = mkKw st.chunks p' := by
        simp only [resOfD] at hf
        simp only [bumpBy, hf, resOfD, mkKw, hpi]
        congr 1
        ring
      rw [hveq]
      exact hkrR
  have hVids : (((fuseMap 0 sem R).map (fun e => e.2)).map (·.id)) = sem.map (·.id) := by
    rw [hvals, List.map_map]
    refine List.map_congr_left ?_
    intro r _
    simp only [Function.comp_apply, bumpBy]
    cases hf : kwFind R r.id with
    | none => rfl
    | some kr => rfl
  have hVnodup : ((fuseMap 0 sem R).map (fun e => e.2)).Nodup := by
    have h1 : (((fuseMap 0 sem R).map (fun e => e.2)).map (·.id)).Nodup := by
      rw [hVids]
      exact hsemids
    exact h1.of_map _
  have hVlen : ((fuseMap 0 sem R).map (fun e => e.2)).length = R.length := by
    rw [hvals, List.length_map, hsemC, List.length_map, hClen, hRlen]
  have hVperm : List.Perm ((fuseMap 0 sem R).map (fun e => e.2)) R :=
    (List.subperm_of_subset hVnodup (fun v hv => hmemR v hv)).perm_of_length_le
      (by omega)
  have hRstrict : R.Pairwise (fun a b => b.score < a.score) := by
    rw [hR]
    refine List.pairwise_map.mpr ?_
    refine (sortedKw_strict (hqw ▸ hdist)).imp ?_
    intro a b h
    exact h
  have hs1 : (List.insertionSort scoreGE ((fuseMap 0 sem R).map (fun e => e.2))).Pairwise
      (fun a b : RetrievalResult => b.score ≤ a.score) := by
    have h := List.sorted_insertionSort scoreGE ((fuseMap 0 sem R).map
      (fun e : String × RetrievalResult => e.2))
    exact h
  have hfinal : List.insertionSort scoreGE ((fuseMap 0 sem R).map (fun e => e.2)) = R :=
    eq_of_perm_sorted_strict (fun r : RetrievalResult => r.score) R _
      ((List.perm_insertionSort scoreGE _).trans hVperm) hs1 hRstrict
  simp only [hybridRetrieve, hsem2k, hkwL]
  rw [hfinal, List.take_of_length_le (by omega), hkwfull topK hnk]

/-- C4, amended: over an aligned snapshot (as many chunk records as index
vectors, pairwise-distinct chunk ids) and with `threshold = 0.0` (so that no
candidate is dropped by the threshold filter), `semantic_weight = 1.0` makes
`HybridRetriever.retrieve` return exactly the pure semantic result list
(`RAGRetriever.retrieve` with the same `top_k` and `rerank=False`); and
when additionally every chunk shares at least one word with the query, the
keyword scores are pairwise distinct, and the index holds at most `top_k`
chunks, `semantic_weight = 0.0` makes it return exactly the keyword search
result list. -/
theorem C4_hybrid_weight_boundaries (st : RetrieverState)
    (embedOne : List Char → List ℚ) (query : List Char) (topK : Nat)
    (rerank : Bool) (vecs : List (List ℚ))
    (hidx : st.index = some vecs) (hlen : vecs.length = st.chunks.length)
    (hids : (st.chunks.map (·.id)).Nodup) :
    hybridRetrieve st embedOne query topK 0 rerank 1
      = retrieveModel st embedOne query topK 0 false ∧
    ((∀ c ∈ st.chunks, 0 < interCount (wordSet query) (wordSet c.content)) →
      ((kwScorePairs st.chunks (wordSet query)).map (·.2)).Nodup →
      st.chunks.length ≤ topK →
      hybridRetrieve st embedOne query topK 0 rerank 0
        = .ok (keywordSearch st query topK)) :=
  ⟨hybrid_weight_one st embedOne query topK rerank vecs hidx hlen hids,
   fun hmatch hdist hnk => hybrid_weight_zero st embedOne query topK rerank vecs
     hidx hlen hids hmatch hdist hnk⟩

/-- A two-chunk aligned retriever for the C4 witness: distinct chunk ids,
every chunk shares a word with the query `"alpha beta"`, and the two keyword
scores (`2/2` and `1/2`) are distinct. -/
def wSt4 : RetrieverState :=
  ⟨some [[0], [3]],
   [⟨"c0", "alpha beta".toList, []⟩, ⟨"c1", "alpha".toList, []⟩]⟩

/-- The witness query for C4. -/
def wQ4 : List Char := "alpha beta".toList

/-- Witness for C4 (amended): on `wSt4` with `top_k = 2` and
`threshold = 0`, both boundary weights reduce to the respective
single-source rankings. -/
theorem C4_witness :
    (wSt4.chunks.map (·.id)).Nodup ∧
    hybridRetrieve wSt4 (fun _ => [1]) wQ4 2 0 true 1
      = retrieveModel wSt4 (fun _ => [1]) wQ4 2 0 false ∧
    hybridRetrieve wSt4 (fun _ => [1]) wQ4 2 0 true 0
      = .ok (keywordSearch wSt4 wQ4 2) := by
  have hids : (wSt4.chunks.map (·.id)).Nodup := by decide
  have hm : ∀ c ∈ wSt4.chunks, 0 < interCount (wordSet wQ4) (wordSet c.content) := by
    decide
  have hdist : ((kwScorePairs wSt4.chunks (wordSet wQ4)).map (·.2)).Nodup := by
    rw [kwScorePairs_total hm]
    have henum : wSt4.chunks.enum
        = [(0, ⟨"c0", "alpha beta".toList, []⟩), (1, ⟨"c1", "alpha".toList, []⟩)] := by
      decide
    rw [henum]
    have hic0 : interCount (wordSet wQ4) (wordSet ("alpha beta".toList)) = 2 := by decide
    have hic1 : interCount (wordSet wQ4) (wordSet ("alpha".toList)) = 1 := by decide
    have hql : (wordSet wQ4).length = 2 := by decide
    simp only [List.map_cons, List.map_nil, hic0, hic1, hql]
    norm_num
  have h := C4_hybrid_weight_boundaries wSt4 (fun _ => [1]) wQ4 2 true [[0], [3]]
    rfl rfl hids
  exact ⟨hids, h.1, h.2 hm hdist (by decide)⟩

/-- The result list of the witness retrieval for C6 (2-chunk index,
`top_k = 5`). -/
def exL6 : List RetrievalResult :=
  (retrieveModel exSt (fun _ => [1]) ("q".toList) 5 0 true).toOption.getD []

/-- Witness for C6: an index of 2 chunks with `top_k = 5` returns exactly
2 results. -/
theorem C6_witness :
    (2 : Nat) < 5 ∧
    retrieveModel exSt (fun _ => [1]) ("q".toList) 5 0 true = .ok exL6 ∧
    exL6.length = 2 := by
  have h := C6_topk_bound exSt (fun _ => [1]) ("q".toList) 5 0 true
  obtain ⟨L, hL, hLl⟩ := h.2 [[0], [3]] rfl rfl (by norm_num [exSt])
    (by intro v hv; fin_cases hv <;> norm_num [similarity, sqL2])
  have hok : retrieveModel exSt (fun _ => [1]) ("q".toList) 5 0 true = .ok exL6 := rfl
  have hLe : L = exL6 := Except.ok.inj (hL.symm.trans hok)
  exact ⟨by norm_num, hok, hLe ▸ hLl⟩

end RAG
